import Mathlib

/-!
Shallow embedding of dav1d's `src/ipred.c` (the intra-prediction reference
kernels) and proofs about them.

Modelling conventions:
* A sample ("pixel") is an `Int`; the bit depth `bd` is a parameter and the
  sample range is `[0, 2^bd - 1]`.  All arithmetic in the C kernels is done in
  `int`/`unsigned` and provably stays far away from 32-bit overflow for the
  block sizes and sample ranges considered here, so plain `Int` arithmetic is
  a faithful model.
* C's `>>` on an `int` value is modelled by `sar` below: division by a power
  of two rounding toward negative infinity, which is what every relevant
  target does and what Lean's Euclidean `Int` division gives for a positive
  divisor.
* A destination buffer is a total function `(row, col) ↦ value`.  The C code
  addresses rows through a byte stride; with a stride of at least `width`
  samples (the validity condition of every claim) the `(row, col)` addressing
  used here is injective on the region the kernels touch, so the model is
  faithful.  Buffer stores are explicit pointwise updates, folded in the same
  order as the C loops.
* The neighbour vector `topleft` is a total function `Int → Int` (negative
  indices = left column, positive = top row), exactly as the C pointer is
  indexed.
-/

namespace Ipred

/-- C arithmetic right shift `v >> k` on a signed value: floor division by
`2^k`.  For a positive divisor Lean's Euclidean division rounds toward
negative infinity, matching the arithmetic shift. -/
def sar (v : Int) (k : Nat) : Int := v / (2 ^ k : Int)

/-- `iclip` from `common/intops.h`: clamp `v` to `[lo, hi]`. -/
def iclip (v lo hi : Int) : Int := if v < lo then lo else if v > hi then hi else v

/-- `iclip_pixel` from `common/bitdepth.h`: clamp to the sample range
`[0, 2^bd - 1]`. -/
def iclip_pixel (bd : Nat) (v : Int) : Int := iclip v 0 (2 ^ bd - 1)

/-- `apply_sign` from `common/intops.h`: `s < 0 ? -v : v`. -/
def apply_sign (v s : Int) : Int := if s < 0 then -v else v

/-- Helper for `ctz`: `ctzAux fuel n` with `fuel ≥ n` computes the number of
trailing zero bits of `n` (structural recursion on the fuel so that it
evaluates by kernel reduction). -/
def ctzAux : Nat → Nat → Nat
  | 0, _ => 0
  | fuel + 1, n => if n % 2 = 1 ∨ n = 0 then 0 else ctzAux fuel (n / 2) + 1

/-- `ctz`: count of trailing zero bits, as used on the block dimensions. -/
def ctz (n : Nat) : Nat := ctzAux n n

/-- A destination pixel buffer: `(row, column) ↦` sample value. -/
def Buf : Type := Nat → Nat → Int

/-- A single pixel store `dst[r][c] = v`. -/
def bufSet (b : Buf) (r c : Nat) (v : Int) : Buf :=
  fun r' c' => if r' = r ∧ c' = c then v else b r' c'

/-- A sequence of pixel stores `dst[r][c] = g r c`, one per cell of the list,
performed in list order. -/
def rectWrite (g : Nat → Nat → Int) (b : Buf) (cells : List (Nat × Nat)) : Buf :=
  cells.foldl (fun acc rc => bufSet acc rc.1 rc.2 (g rc.1 rc.2)) b

/-- The row-major cell order `(0,0) (0,1) … (h-1,w-1)` of the kernels' write
loops. -/
def rectCells (h w : Nat) : List (Nat × Nat) :=
  (List.range h).flatMap (fun y => (List.range w).map (fun x => (y, x)))

/-- The common kernel loop shape `for (y) for (x) dst[x] = g y x`. -/
def writeRect (b : Buf) (w h : Nat) (g : Nat → Nat → Int) : Buf :=
  rectWrite g b (rectCells h w)

theorem bufSet_hit (b : Buf) (r c : Nat) (v : Int) : bufSet b r c v r c = v := by
  simp [bufSet]

theorem bufSet_miss (b : Buf) (r c r' c' : Nat) (v : Int) (h : ¬(r' = r ∧ c' = c)) :
    bufSet b r c v r' c' = b r' c' := by
  simp only [bufSet, if_neg h]

/-- A fold of buffer-updating steps leaves a cell unchanged when every single
step does. -/
theorem foldl_buf_preserve {α : Type} (step : Buf → α → Buf) (xs : List α) (r c : Nat)
    (h : ∀ b a, a ∈ xs → step b a r c = b r c) :
    ∀ b : Buf, xs.foldl step b r c = b r c := by
  induction xs with
  | nil => intro b; rfl
  | cons a t ih =>
    intro b
    simp only [List.foldl_cons]
    rw [ih (fun b' a' ha' => h b' a' (List.mem_cons_of_mem _ ha')),
      h b a (List.mem_cons_self _ _)]

/-- After a `rectWrite`, a cell that appears in the list holds its `g` value
(every store to a given cell stores the same value `g r c`). -/
theorem rectWrite_mem (g : Nat → Nat → Int) (cells : List (Nat × Nat)) (r c : Nat)
    (hmem : (r, c) ∈ cells) : ∀ b, rectWrite g b cells r c = g r c := by
  induction cells with
  | nil => cases hmem
  | cons a t ih =>
    intro b
    by_cases ht : (r, c) ∈ t
    · exact ih ht _
    · have ha : a = (r, c) := by
        rcases List.mem_cons.mp hmem with h1 | h2
        · exact h1.symm
        · exact absurd h2 ht
      subst ha
      simp only [rectWrite, List.foldl_cons]
      have hpres : ∀ b' : Buf, rectWrite g b' t r c = b' r c := by
        intro b'
        apply foldl_buf_preserve
        intro bb aa haa
        apply bufSet_miss
        rintro ⟨h1, h2⟩
        apply ht
        have haa2 : aa = (r, c) := by
          cases aa
          simp only [Prod.mk.injEq]
          exact ⟨h1.symm, h2.symm⟩
        rw [haa2] at haa
        exact haa
      show rectWrite g (bufSet b r c (g r c)) t r c = g r c
      rw [hpres, bufSet_hit]

/-- A `rectWrite` leaves cells outside the list untouched. -/
theorem rectWrite_out (g : Nat → Nat → Int) (cells : List (Nat × Nat)) (r c : Nat)
    (hmem : (r, c) ∉ cells) : ∀ b, rectWrite g b cells r c = b r c := by
  intro b
  apply foldl_buf_preserve
  intro bb aa haa
  apply bufSet_miss
  rintro ⟨h1, h2⟩
  apply hmem
  have haa2 : aa = (r, c) := by
    cases aa
    simp only [Prod.mk.injEq]
    exact ⟨h1.symm, h2.symm⟩
  rw [haa2] at haa
  exact haa

theorem rectCells_mem (h w r c : Nat) : (r, c) ∈ rectCells h w ↔ r < h ∧ c < w := by
  constructor
  · intro hm
    rcases List.mem_flatMap.mp hm with ⟨y, hy, hx⟩
    rcases List.mem_map.mp hx with ⟨x, hx2, heq⟩
    cases heq
    exact ⟨List.mem_range.mp hy, List.mem_range.mp hx2⟩
  · rintro ⟨hr, hc⟩
    exact List.mem_flatMap.mpr ⟨r, List.mem_range.mpr hr,
      List.mem_map.mpr ⟨c, List.mem_range.mpr hc, rfl⟩⟩

theorem writeRect_in (b : Buf) (w h : Nat) (g : Nat → Nat → Int) (r c : Nat)
    (hr : r < h) (hc : c < w) : writeRect b w h g r c = g r c :=
  rectWrite_mem g _ r c ((rectCells_mem h w r c).mpr ⟨hr, hc⟩) b

theorem writeRect_out (b : Buf) (w h : Nat) (g : Nat → Nat → Int) (r c : Nat)
    (hout : ¬(r < h ∧ c < w)) : writeRect b w h g r c = b r c :=
  rectWrite_out g _ r c (fun hmem => hout ((rectCells_mem h w r c).mp hmem)) b

/-! ## PAETH prediction (`ipred_paeth_c`, src/ipred.c lines 154-173) -/

/-- The three-way selection of `ipred_paeth_c` with the C locals `base`,
`ldiff`, `tdiff`, `tldiff` inlined (`base = left + top - topleft`). -/
def paethSelect (left top topleft : Int) : Int :=
  if |left - (left + top - topleft)| ≤ |top - (left + top - topleft)| ∧
     |left - (left + top - topleft)| ≤ |topleft - (left + top - topleft)| then left
  else if |top - (left + top - topleft)| ≤ |topleft - (left + top - topleft)| then top
  else topleft

/-- The per-pixel value of `ipred_paeth_c`: `left = tl_ptr[-(y+1)]`,
`top = tl_ptr[1+x]`, `topleft = tl_ptr[0]`. -/
def paethPixel (tl : Int → Int) (y x : Nat) : Int :=
  paethSelect (tl (-((y : Int) + 1))) (tl (1 + (x : Int))) (tl 0)

/-- `ipred_paeth_c`: fill the `width × height` rectangle with `paethPixel`. -/
def ipred_paeth (b : Buf) (tl : Int → Int) (width height : Nat) : Buf :=
  writeRect b width height (fun y x => paethPixel tl y x)

/-- The property the spec claims of the PAETH output pixel `out`: it is one of
{left, top, topleft}, its absolute difference from `base = left + top -
topleft` is minimal among the three, and ties are broken in the order
left → top → topleft. -/
def paethOk (left top topleft out : Int) : Prop :=
  (out = left ∨ out = top ∨ out = topleft) ∧
  (|out - (left + top - topleft)| ≤ |left - (left + top - topleft)| ∧
   |out - (left + top - topleft)| ≤ |top - (left + top - topleft)| ∧
   |out - (left + top - topleft)| ≤ |topleft - (left + top - topleft)|) ∧
  ((|left - (left + top - topleft)| ≤ |top - (left + top - topleft)| ∧
    |left - (left + top - topleft)| ≤ |topleft - (left + top - topleft)|) → out = left) ∧
  (¬(|left - (left + top - topleft)| ≤ |top - (left + top - topleft)| ∧
     |left - (left + top - topleft)| ≤ |topleft - (left + top - topleft)|) →
    ((|top - (left + top - topleft)| ≤ |topleft - (left + top - topleft)| → out = top) ∧
     (¬(|top - (left + top - topleft)| ≤ |topleft - (left + top - topleft)|) → out = topleft)))

theorem paethSelect_ok (L T TL : Int) : paethOk L T TL (paethSelect L T TL) := by
  unfold paethSelect paethOk
  split_ifs with h1 h2
  · exact ⟨Or.inl rfl, ⟨le_refl _, h1.1, h1.2⟩, fun _ => rfl, fun hc => absurd h1 hc⟩
  · have h1' : ¬(|L - (L + T - TL)| ≤ |T - (L + T - TL)|) ∨
        ¬(|L - (L + T - TL)| ≤ |TL - (L + T - TL)|) := by
      by_contra hcon
      push_neg at hcon
      exact h1 ⟨hcon.1, hcon.2⟩
    have htle : |T - (L + T - TL)| ≤ |L - (L + T - TL)| := by
      rcases h1' with h | h <;> omega
    exact ⟨Or.inr (Or.inl rfl), ⟨htle, le_refl _, h2⟩, fun hc => absurd hc h1,
      fun _ => ⟨fun _ => rfl, fun hc => absurd h2 hc⟩⟩
  · have h1' : ¬(|L - (L + T - TL)| ≤ |T - (L + T - TL)|) ∨
        ¬(|L - (L + T - TL)| ≤ |TL - (L + T - TL)|) := by
      by_contra hcon
      push_neg at hcon
      exact h1 ⟨hcon.1, hcon.2⟩
    have h2' : |TL - (L + T - TL)| ≤ |T - (L + T - TL)| := by omega
    have htl_le : |TL - (L + T - TL)| ≤ |L - (L + T - TL)| := by
      rcases h1' with h | h <;> omega
    exact ⟨Or.inr (Or.inr rfl), ⟨htl_le, h2', le_refl _⟩, fun hc => absurd hc h1,
      fun _ => ⟨fun hc => absurd hc h2, fun _ => rfl⟩⟩

/-- The concrete neighbour vector of the spec's PAETH scenario:
`topleft = 10`, top row all `12`, left column all `8`. -/
def paethScenarioTl : Int → Int :=
  fun i => if i = 0 then 10 else if 0 < i then 12 else 8

/-- C4: every pixel of a PAETH prediction equals whichever of
{left, top, topleft} is closest to `base = left + top - topleft`, left winning
ties with top and topleft and top winning ties with topleft; and in the
concrete scenario (topleft 10, top row all 12, left column all 8) every
output pixel is 10. -/
theorem ipred_paeth_spec (b : Buf) (tl : Int → Int) (width height : Nat)
    (y x : Nat) (hy : y < height) (hx : x < width) :
    paethOk (tl (-((y : Int) + 1))) (tl (1 + (x : Int))) (tl 0)
      (ipred_paeth b tl width height y x) ∧
    (∀ y' < 4, ∀ x' < 4, ipred_paeth b paethScenarioTl 4 4 y' x' = 10) := by
  constructor
  · have hval : ipred_paeth b tl width height y x = paethPixel tl y x :=
      writeRect_in b width height _ y x hy hx
    rw [hval]
    exact paethSelect_ok _ _ _
  · intro y' hy' x' hx'
    have hval : ipred_paeth b paethScenarioTl 4 4 y' x' = paethPixel paethScenarioTl y' x' :=
      writeRect_in b 4 4 _ y' x' hy' hx'
    rw [hval]
    have hall : ∀ yy, yy < 4 → ∀ xx, xx < 4 → paethPixel paethScenarioTl yy xx = 10 := by decide
    exact hall y' hy' x' hx'

/-- Witness for C4 at a concrete input: pixel (0,0) of the scenario block. -/
theorem ipred_paeth_spec_witness :
    ipred_paeth (fun _ _ => 0) paethScenarioTl 4 4 0 0 = 10 :=
  (ipred_paeth_spec (fun _ _ => 0) paethScenarioTl 4 4 0 0 (by decide) (by decide)).2
    0 (by decide) 0 (by decide)

/-! ## Edge filtering (`filter_edge`, src/ipred.c lines 269-285) -/

/-- The static 3×5 tap table of `filter_edge` (row = strength - 1). -/
def edgeKernel (strength j : Nat) : Int :=
  (([[0, 4, 8, 4, 0], [0, 5, 6, 5, 0], [2, 4, 4, 4, 2]].getD (strength - 1) []).getD j 0 : Int)

/-- `filter_edge`: the value of `out[i]`; reads of `in` are clamped to
`[lo, hi - 1]` (the C arguments `from`/`to`; `from` is a Lean keyword).  The
`j < 5` accumulation loop is unrolled. -/
def filterEdge (strength : Nat) (inF : Int → Int) (lo hi : Int) (i : Nat) : Int :=
  sar (inF (iclip ((i : Int) - 2 + 0) lo (hi - 1)) * edgeKernel strength 0 +
       inF (iclip ((i : Int) - 2 + 1) lo (hi - 1)) * edgeKernel strength 1 +
       inF (iclip ((i : Int) - 2 + 2) lo (hi - 1)) * edgeKernel strength 2 +
       inF (iclip ((i : Int) - 2 + 3) lo (hi - 1)) * edgeKernel strength 3 +
       inF (iclip ((i : Int) - 2 + 4) lo (hi - 1)) * edgeKernel strength 4 + 8) 4

theorem iclip_of_mem (v lo hi : Int) (h : lo ≤ v ∧ v ≤ hi) : iclip v lo hi = v := by
  unfold iclip
  rcases h with ⟨h1, h2⟩
  rw [if_neg (by omega), if_neg (by omega)]

/-- Range of a clamped read: if every input sample is in `[0, M]` then so is
the sample read through `iclip`. -/
theorem in_range_iclip (inF : Int → Int) (M : Int)
    (hin : ∀ j : Int, 0 ≤ inF j ∧ inF j ≤ M) (v lo hi : Int) :
    0 ≤ inF (iclip v lo hi) ∧ inF (iclip v lo hi) ≤ M := hin _

/-- C6: each `filter_edge` output equals
`(Σ_{j<5} tap[j]·in[clamp(i-2+j, lo, hi-1)] + 8) >> 4` with the tap row
selected by the strength, and when the strength is 1, 2 or 3 and every input
sample lies in `[0, 2^bd - 1]`, the output lies in `[0, 2^bd - 1]` with no
final clip (each tap row is non-negative and sums to 16). -/
theorem filter_edge_spec (bd strength : Nat) (inF : Int → Int) (lo hi : Int) (i : Nat)
    (hs : strength = 1 ∨ strength = 2 ∨ strength = 3)
    (hin : ∀ j : Int, 0 ≤ inF j ∧ inF j ≤ 2 ^ bd - 1) :
    filterEdge strength inF lo hi i =
      ((Finset.range 5).sum
        (fun j => edgeKernel strength j * inF (iclip ((i : Int) - 2 + j) lo (hi - 1))) + 8) / 16 ∧
    0 ≤ filterEdge strength inF lo hi i ∧
    filterEdge strength inF lo hi i ≤ 2 ^ bd - 1 := by
  have hsum : (Finset.range 5).sum
      (fun j => edgeKernel strength j * inF (iclip ((i : Int) - 2 + j) lo (hi - 1))) =
      edgeKernel strength 0 * inF (iclip ((i : Int) - 2 + 0) lo (hi - 1)) +
      edgeKernel strength 1 * inF (iclip ((i : Int) - 2 + 1) lo (hi - 1)) +
      edgeKernel strength 2 * inF (iclip ((i : Int) - 2 + 2) lo (hi - 1)) +
      edgeKernel strength 3 * inF (iclip ((i : Int) - 2 + 3) lo (hi - 1)) +
      edgeKernel strength 4 * inF (iclip ((i : Int) - 2 + 4) lo (hi - 1)) := by
    rw [Finset.sum_range_succ, Finset.sum_range_succ, Finset.sum_range_succ,
      Finset.sum_range_succ, Finset.sum_range_one]
    norm_num
  refine ⟨?_, ?_⟩
  · rw [hsum]
    unfold filterEdge sar
    norm_num
    ring_nf
  · have h0 := hin (iclip ((i : Int) - 2 + 0) lo (hi - 1))
    have h1 := hin (iclip ((i : Int) - 2 + 1) lo (hi - 1))
    have h2 := hin (iclip ((i : Int) - 2 + 2) lo (hi - 1))
    have h3 := hin (iclip ((i : Int) - 2 + 3) lo (hi - 1))
    have h4 := hin (iclip ((i : Int) - 2 + 4) lo (hi - 1))
    unfold filterEdge sar
    rcases hs with rfl | rfl | rfl <;>
      · simp only [edgeKernel, List.getD]
        norm_num at h0 h1 h2 h3 h4 ⊢
        omega

/-- Witness for C6 at a concrete input: strength 2, constant input 100,
bit depth 8. -/
theorem filter_edge_spec_witness :
    filterEdge 2 (fun _ => 100) 0 5 1 =
      ((Finset.range 5).sum
        (fun j => edgeKernel 2 j * (fun _ : Int => (100 : Int)) (iclip ((1 : Int) - 2 + j) 0 (5 - 1))) + 8) / 16 ∧
    0 ≤ filterEdge 2 (fun _ => 100) 0 5 1 ∧
    filterEdge 2 (fun _ => 100) 0 5 1 ≤ 2 ^ 8 - 1 :=
  filter_edge_spec 8 2 (fun _ => 100) 0 5 1 (Or.inr (Or.inl rfl))
    (fun _ => by norm_num)

/-! ## SMOOTH prediction (`ipred_smooth_c`, `ipred_smooth_v_c`,
`ipred_smooth_h_c`, src/ipred.c lines 175-227) -/

/-- Per-pixel value of `ipred_smooth_c`.  `W` models the external
`dav1d_sm_weights` table (it lives in src/tables.c, which is not part of this
tree); `weights_hor = &W[width]`, `weights_ver = &W[height]`,
`right = topleft[width]`, `bottom = topleft[-height]`. -/
def smoothPixel (W : Nat → Nat) (tl : Int → Int) (width height y x : Nat) : Int :=
  sar ((W (height + y) : Int) * tl (1 + (x : Int)) +
       (256 - (W (height + y) : Int)) * tl (-(height : Int)) +
       (W (width + x) : Int) * tl (-((y : Int) + 1)) +
       (256 - (W (width + x) : Int)) * tl (width : Int) + 256) 9

/-- Per-pixel value of `ipred_smooth_v_c`. -/
def smoothVPixel (W : Nat → Nat) (tl : Int → Int) (height y x : Nat) : Int :=
  sar ((W (height + y) : Int) * tl (1 + (x : Int)) +
       (256 - (W (height + y) : Int)) * tl (-(height : Int)) + 128) 8

/-- Per-pixel value of `ipred_smooth_h_c`. -/
def smoothHPixel (W : Nat → Nat) (tl : Int → Int) (width y x : Nat) : Int :=
  sar ((W (width + x) : Int) * tl (-((y : Int) + 1)) +
       (256 - (W (width + x) : Int)) * tl (width : Int) + 128) 8

def ipred_smooth (b : Buf) (W : Nat → Nat) (tl : Int → Int) (width height : Nat) : Buf :=
  writeRect b width height (fun y x => smoothPixel W tl width height y x)

def ipred_smooth_v (b : Buf) (W : Nat → Nat) (tl : Int → Int) (width height : Nat) : Buf :=
  writeRect b width height (fun y x => smoothVPixel W tl height y x)

def ipred_smooth_h (b : Buf) (W : Nat → Nat) (tl : Int → Int) (width height : Nat) : Buf :=
  writeRect b width height (fun y x => smoothHPixel W tl width y x)

/-- A weighted blend `w·v1 + (256-w)·v2` of samples in `[0, M]` with a weight
in `[0, 256]` stays in `[0, 256·M]`. -/
theorem blend_bound (w v1 v2 M : Int) (hw0 : 0 ≤ w) (hw : w ≤ 256)
    (h10 : 0 ≤ v1) (h1 : v1 ≤ M) (h20 : 0 ≤ v2) (h2 : v2 ≤ M) :
    0 ≤ w * v1 + (256 - w) * v2 ∧ w * v1 + (256 - w) * v2 ≤ 256 * M := by
  constructor
  · have ha := mul_nonneg hw0 h10
    have hb := mul_nonneg (by omega : (0 : Int) ≤ 256 - w) h20
    omega
  · have ha : w * v1 ≤ w * M := mul_le_mul_of_nonneg_left h1 hw0
    have hb : (256 - w) * v2 ≤ (256 - w) * M := mul_le_mul_of_nonneg_left h2 (by omega)
    calc w * v1 + (256 - w) * v2 ≤ w * M + (256 - w) * M := by omega
      _ = 256 * M := by ring

/-- C9: with neighbour samples in `[0, 2^bd - 1]` and weight-table entries at
most 256, every pixel written by SMOOTH, SMOOTH_V and SMOOTH_H is already in
`[0, 2^bd - 1]`, although the kernels apply no clipping. -/
theorem smooth_range (bd : Nat) (W : Nat → Nat) (tl : Int → Int) (b : Buf)
    (width height y x : Nat) (hW : ∀ i, W i ≤ 256)
    (hin : ∀ j : Int, 0 ≤ tl j ∧ tl j ≤ 2 ^ bd - 1)
    (hy : y < height) (hx : x < width) :
    (0 ≤ ipred_smooth b W tl width height y x ∧
     ipred_smooth b W tl width height y x ≤ 2 ^ bd - 1) ∧
    (0 ≤ ipred_smooth_v b W tl width height y x ∧
     ipred_smooth_v b W tl width height y x ≤ 2 ^ bd - 1) ∧
    (0 ≤ ipred_smooth_h b W tl width height y x ∧
     ipred_smooth_h b W tl width height y x ≤ 2 ^ bd - 1) := by
  have hM : (0 : Int) ≤ 2 ^ bd - 1 := by
    have := (hin 0).1
    have := (hin 0).2
    omega
  have hwv0 : (0 : Int) ≤ (W (height + y) : Int) := Int.natCast_nonneg _
  have hwv : (W (height + y) : Int) ≤ 256 := by exact_mod_cast hW (height + y)
  have hwh0 : (0 : Int) ≤ (W (width + x) : Int) := Int.natCast_nonneg _
  have hwh : (W (width + x) : Int) ≤ 256 := by exact_mod_cast hW (width + x)
  have hb1 := blend_bound ((W (height + y) : Int)) (tl (1 + (x : Int)))
    (tl (-(height : Int))) (2 ^ bd - 1) hwv0 hwv (hin _).1 (hin _).2 (hin _).1 (hin _).2
  have hb2 := blend_bound ((W (width + x) : Int)) (tl (-((y : Int) + 1)))
    (tl (width : Int)) (2 ^ bd - 1) hwh0 hwh (hin _).1 (hin _).2 (hin _).1 (hin _).2
  norm_num at hb1 hb2
  refine ⟨?_, ?_, ?_⟩
  · rw [ipred_smooth, writeRect_in b width height _ y x hy hx]
    unfold smoothPixel sar
    norm_num
    omega
  · rw [ipred_smooth_v, writeRect_in b width height _ y x hy hx]
    unfold smoothVPixel sar
    norm_num
    omega
  · rw [ipred_smooth_h, writeRect_in b width height _ y x hy hx]
    unfold smoothHPixel sar
    norm_num
    omega

/-- Witness for C9 at a concrete input: 4×4, all neighbours 200, all weights
128, bit depth 8, pixel (1, 2). -/
theorem smooth_range_witness :
    (0 ≤ ipred_smooth (fun _ _ => 0) (fun _ => 128) (fun _ => 200) 4 4 1 2 ∧
     ipred_smooth (fun _ _ => 0) (fun _ => 128) (fun _ => 200) 4 4 1 2 ≤ 2 ^ 8 - 1) ∧
    (0 ≤ ipred_smooth_v (fun _ _ => 0) (fun _ => 128) (fun _ => 200) 4 4 1 2 ∧
     ipred_smooth_v (fun _ _ => 0) (fun _ => 128) (fun _ => 200) 4 4 1 2 ≤ 2 ^ 8 - 1) ∧
    (0 ≤ ipred_smooth_h (fun _ _ => 0) (fun _ => 128) (fun _ => 200) 4 4 1 2 ∧
     ipred_smooth_h (fun _ _ => 0) (fun _ => 128) (fun _ => 200) 4 4 1 2 ≤ 2 ^ 8 - 1) :=
  smooth_range 8 (fun _ => 128) (fun _ => 200) (fun _ _ => 0) 4 4 1 2
    (fun _ => by norm_num) (fun _ => by norm_num) (by norm_num) (by norm_num)

/-! ## DC prediction (`splat_dc` and the four DC variants,
src/ipred.c lines 40-132) -/

/-- The starting columns of the wide stores of `splat_dc`: the x values taken
by the C loop `for (x = 0; x < width; x += size)`. -/
def storeStarts (width size : Nat) : List Nat :=
  (List.range ((width + size - 1) / size)).map (fun k => size * k)

/-- The cells written by `splat_dc`: for each row, each wide store covers
`size` consecutive columns starting at a multiple of `size`. -/
def splatCells (width height size : Nat) : List (Nat × Nat) :=
  (List.range height).flatMap (fun y =>
    (storeStarts width size).flatMap (fun x0 =>
      (List.range size).map (fun i => (y, x0 + i))))

/-- `splat_dc`: every store writes the value `dc` into each covered pixel.
The 8-bit build (`hbd = false`) uses 8-pixel 64-bit stores when `width > 4`
and 4-pixel 32-bit stores otherwise; the high-bit-depth build uses 4-sample
64-bit stores everywhere. -/
def splat_dc (hbd : Bool) (b : Buf) (width height : Nat) (dc : Int) : Buf :=
  if hbd then rectWrite (fun _ _ => dc) b (splatCells width height 4)
  else if 4 < width then rectWrite (fun _ _ => dc) b (splatCells width height 8)
  else rectWrite (fun _ _ => dc) b (splatCells width height 4)

theorem splatCells_mem (m s : Nat) (hs : 0 < s) (h w : Nat) (hw : w = s * m) (r c : Nat) :
    (r, c) ∈ splatCells w h s ↔ r < h ∧ c < w := by
  subst hw
  have hq : (s * m + s - 1) / s = m := by
    rcases Nat.eq_zero_or_pos m with rfl | hm
    · have h0 : s * 0 + s - 1 = s - 1 := by omega
      rw [h0]
      exact Nat.div_eq_of_lt (by omega)
    · have h1 : s * m + s - 1 = s * m + (s - 1) := by omega
      rw [h1, Nat.mul_add_div hs, Nat.div_eq_of_lt (by omega)]
      omega
  constructor
  · intro hmem
    rcases List.mem_flatMap.mp hmem with ⟨y, hy, hrest⟩
    rcases List.mem_flatMap.mp hrest with ⟨x0, hx0, hcell⟩
    rcases List.mem_map.mp hcell with ⟨i, hi, heq⟩
    rcases List.mem_map.mp hx0 with ⟨k, hk, hx0eq⟩
    cases heq
    refine ⟨List.mem_range.mp hy, ?_⟩
    have hk' : k < m := by rw [hq] at hk; exact List.mem_range.mp hk
    have hi' : i < s := List.mem_range.mp hi
    subst hx0eq
    calc s * k + i < s * k + s := by omega
      _ = s * (k + 1) := by ring
      _ ≤ s * m := Nat.mul_le_mul_left s hk'
  · rintro ⟨hr, hc⟩
    refine List.mem_flatMap.mpr ⟨r, List.mem_range.mpr hr, ?_⟩
    refine List.mem_flatMap.mpr ⟨s * (c / s), ?_, ?_⟩
    · refine List.mem_map.mpr ⟨c / s, ?_, rfl⟩
      rw [hq]
      exact List.mem_range.mpr (Nat.div_lt_of_lt_mul hc)
    · refine List.mem_map.mpr ⟨c % s, List.mem_range.mpr (Nat.mod_lt _ hs), ?_⟩
      rw [Nat.div_add_mod]

/-- The dimensions the claims quantify over: powers of two in [4, 64]. -/
def validDim (n : Nat) : Prop := n = 4 ∨ n = 8 ∨ n = 16 ∨ n = 32 ∨ n = 64

theorem splat_dc_in (hbd : Bool) (b : Buf) (w h : Nat) (dc : Int) (r c : Nat)
    (hw : validDim w) (hr : r < h) (hc : c < w) :
    splat_dc hbd b w h dc r c = dc := by
  unfold splat_dc
  rcases hw with rfl | rfl | rfl | rfl | rfl <;>
    cases hbd <;>
    simp only [if_true, if_false, Bool.false_eq_true, Bool.true_eq_false, ite_true, ite_false] <;>
    norm_num <;>
    first
      | exact rectWrite_mem _ _ r c ((splatCells_mem 1 4 (by norm_num) h 4 (by norm_num) r c).mpr ⟨hr, hc⟩) b
      | exact rectWrite_mem _ _ r c ((splatCells_mem 2 4 (by norm_num) h 8 (by norm_num) r c).mpr ⟨hr, hc⟩) b
      | exact rectWrite_mem _ _ r c ((splatCells_mem 4 4 (by norm_num) h 16 (by norm_num) r c).mpr ⟨hr, hc⟩) b
      | exact rectWrite_mem _ _ r c ((splatCells_mem 8 4 (by norm_num) h 32 (by norm_num) r c).mpr ⟨hr, hc⟩) b
      | exact rectWrite_mem _ _ r c ((splatCells_mem 16 4 (by norm_num) h 64 (by norm_num) r c).mpr ⟨hr, hc⟩) b
      | exact rectWrite_mem _ _ r c ((splatCells_mem 1 8 (by norm_num) h 8 (by norm_num) r c).mpr ⟨hr, hc⟩) b
      | exact rectWrite_mem _ _ r c ((splatCells_mem 2 8 (by norm_num) h 16 (by norm_num) r c).mpr ⟨hr, hc⟩) b
      | exact rectWrite_mem _ _ r c ((splatCells_mem 4 8 (by norm_num) h 32 (by norm_num) r c).mpr ⟨hr, hc⟩) b
      | exact rectWrite_mem _ _ r c ((splatCells_mem 8 8 (by norm_num) h 64 (by norm_num) r c).mpr ⟨hr, hc⟩) b

theorem splat_dc_out (hbd : Bool) (b : Buf) (w h : Nat) (dc : Int) (r c : Nat)
    (hw : validDim w) (hout : ¬(r < h ∧ c < w)) :
    splat_dc hbd b w h dc r c = b r c := by
  unfold splat_dc
  rcases hw with rfl | rfl | rfl | rfl | rfl <;>
    cases hbd <;>
    norm_num <;>
    first
      | exact rectWrite_out _ _ r c (fun hm => hout ((splatCells_mem 1 4 (by norm_num) h 4 (by norm_num) r c).mp hm)) b
      | exact rectWrite_out _ _ r c (fun hm => hout ((splatCells_mem 2 4 (by norm_num) h 8 (by norm_num) r c).mp hm)) b
      | exact rectWrite_out _ _ r c (fun hm => hout ((splatCells_mem 4 4 (by norm_num) h 16 (by norm_num) r c).mp hm)) b
      | exact rectWrite_out _ _ r c (fun hm => hout ((splatCells_mem 8 4 (by norm_num) h 32 (by norm_num) r c).mp hm)) b
      | exact rectWrite_out _ _ r c (fun hm => hout ((splatCells_mem 16 4 (by norm_num) h 64 (by norm_num) r c).mp hm)) b
      | exact rectWrite_out _ _ r c (fun hm => hout ((splatCells_mem 1 8 (by norm_num) h 8 (by norm_num) r c).mp hm)) b
      | exact rectWrite_out _ _ r c (fun hm => hout ((splatCells_mem 2 8 (by norm_num) h 16 (by norm_num) r c).mp hm)) b
      | exact rectWrite_out _ _ r c (fun hm => hout ((splatCells_mem 4 8 (by norm_num) h 32 (by norm_num) r c).mp hm)) b
      | exact rectWrite_out _ _ r c (fun hm => hout ((splatCells_mem 8 8 (by norm_num) h 64 (by norm_num) r c).mp hm)) b

/-- The accumulation loop `for (i) dc += topleft[1 + i]` of the DC kernels. -/
def topSumAcc (tl : Int → Int) (n : Nat) (init : Int) : Int :=
  (List.range n).foldl (fun acc (i : Nat) => acc + tl (1 + (i : Int))) init

/-- The accumulation loop `for (i) dc += topleft[-(1 + i)]`. -/
def leftSumAcc (tl : Int → Int) (n : Nat) (init : Int) : Int :=
  (List.range n).foldl (fun acc (i : Nat) => acc + tl (-(1 + (i : Int)))) init

/-- The dc value `ipred_dc_top_c` passes to `splat_dc`:
`(width/2 + Σ top) >> ctz(width)`. -/
def dcTopValue (tl : Int → Int) (w : Nat) : Int :=
  sar (topSumAcc tl w ((w : Int) / 2)) (ctz w)

/-- The dc value `ipred_dc_left_c` passes to `splat_dc`. -/
def dcLeftValue (tl : Int → Int) (h : Nat) : Int :=
  sar (leftSumAcc tl h ((h : Int) / 2)) (ctz h)

/-- The multipliers and shift of the non-square DC correction
(8-bit vs higher bit depth builds). -/
def MULTIPLIER_1x2 (hbd : Bool) : Int := if hbd then 0xAAAB else 0x5556

def MULTIPLIER_1x4 (hbd : Bool) : Int := if hbd then 0x6667 else 0x3334

def BASE_SHIFT (hbd : Bool) : Nat := if hbd then 17 else 16

/-- The mean `ipred_dc_c` computes before the non-square correction:
`((w+h)/2 + Σ top + Σ left) >> ctz(w+h)` (sums folded in source order). -/
def dcRawValue (tl : Int → Int) (w h : Nat) : Int :=
  sar (leftSumAcc tl h (topSumAcc tl w (((w : Int) + (h : Int)) / 2))) (ctz (w + h))

/-- The dc value `ipred_dc_c` passes to `splat_dc`, including the non-square
reciprocal correction. -/
def dcValue (hbd : Bool) (tl : Int → Int) (w h : Nat) : Int :=
  if w ≠ h then
    sar (dcRawValue tl w h *
      (if h * 2 < w ∨ w * 2 < h then MULTIPLIER_1x4 hbd else MULTIPLIER_1x2 hbd))
      (BASE_SHIFT hbd)
  else dcRawValue tl w h

/-- The constant `ipred_dc_128_c` splats: `1 << (BITDEPTH - 1)`. -/
def dc128Value (bd : Nat) : Int := 2 ^ (bd - 1)

def ipred_dc_top (hbd : Bool) (b : Buf) (tl : Int → Int) (w h : Nat) : Buf :=
  splat_dc hbd b w h (dcTopValue tl w)

def ipred_dc_left (hbd : Bool) (b : Buf) (tl : Int → Int) (w h : Nat) : Buf :=
  splat_dc hbd b w h (dcLeftValue tl h)

def ipred_dc (hbd : Bool) (b : Buf) (tl : Int → Int) (w h : Nat) : Buf :=
  splat_dc hbd b w h (dcValue hbd tl w h)

def ipred_dc_128 (hbd : Bool) (bd : Nat) (b : Buf) (tl : Int → Int) (w h : Nat) : Buf :=
  splat_dc hbd b w h (dc128Value bd)

/-- An accumulation loop is the initial value plus the sum of the
contributions. -/
theorem foldl_add_eq (g : Nat → Int) (l : List Nat) :
    ∀ init : Int, l.foldl (fun acc i => acc + g i) init = init + (l.map g).sum := by
  induction l with
  | nil => intro init; simp
  | cons a t ih =>
    intro init
    simp only [List.foldl_cons, List.map_cons, List.sum_cons, ih]
    ring

theorem topSumAcc_eq (tl : Int → Int) (n : Nat) (init : Int) :
    topSumAcc tl n init = init + ((List.range n).map (fun (i : Nat) => tl (1 + (i : Int)))).sum := by
  unfold topSumAcc
  exact foldl_add_eq _ _ init

theorem leftSumAcc_eq (tl : Int → Int) (n : Nat) (init : Int) :
    leftSumAcc tl n init = init + ((List.range n).map (fun (i : Nat) => tl (-(1 + (i : Int))))).sum := by
  unfold leftSumAcc
  exact foldl_add_eq _ _ init

/-- Bounds on a sum of samples in `[0, M]`. -/
theorem mapsum_bound (g : Nat → Int) (M : Int) (l : List Nat)
    (hg : ∀ i ∈ l, 0 ≤ g i ∧ g i ≤ M) :
    0 ≤ (l.map g).sum ∧ (l.map g).sum ≤ (l.length : Int) * M := by
  induction l with
  | nil => constructor <;> simp
  | cons a t ih =>
    have ha := hg a (List.mem_cons_self a t)
    obtain ⟨ih1, ih2⟩ := ih (fun i hi => hg i (List.mem_cons_of_mem a hi))
    simp only [List.map_cons, List.sum_cons, List.length_cons]
    have hc : ((t.length + 1 : Nat) : Int) * M = (t.length : Int) * M + M := by
      push_cast
      ring
    rw [hc]
    omega

/-- C3: for non-square blocks the dc value splatted by `ipred_dc_c` is the
rounded neighbour mean multiplied by 0x5556 (longer side at most twice the
shorter) or 0x3334 (otherwise) and shifted right by 16 in the 8-bit build,
and by 0xAAAB / 0x6667 with shift 17 in the higher-bit-depth build. -/
theorem ipred_dc_rect_spec (hbd : Bool) (bd : Nat) (b : Buf) (tl : Int → Int)
    (w h y x : Nat) (hwh : w ≠ h) (hw : validDim w) (hh : validDim h)
    (hin : ∀ j : Int, 0 ≤ tl j ∧ tl j ≤ 2 ^ bd - 1) (hy : y < h) (hx : x < w) :
    ipred_dc hbd b tl w h y x =
      sar (sar (((List.range w).map (fun (i : Nat) => tl (1 + (i : Int)))).sum +
                ((List.range h).map (fun (i : Nat) => tl (-(1 + (i : Int))))).sum +
                ((w : Int) + (h : Int)) / 2) (ctz (w + h)) *
           (if max w h ≤ 2 * min w h then MULTIPLIER_1x2 hbd else MULTIPLIER_1x4 hbd))
          (BASE_SHIFT hbd) := by
  rw [ipred_dc, splat_dc_in hbd b w h _ y x hw hy hx]
  unfold dcValue
  rw [if_pos hwh]
  have hraw : dcRawValue tl w h =
      sar (((List.range w).map (fun (i : Nat) => tl (1 + (i : Int)))).sum +
           ((List.range h).map (fun (i : Nat) => tl (-(1 + (i : Int))))).sum +
           ((w : Int) + (h : Int)) / 2) (ctz (w + h)) := by
    unfold dcRawValue
    rw [leftSumAcc_eq, topSumAcc_eq]
    congr 1
    omega
  rw [hraw]
  have hcond : (h * 2 < w ∨ w * 2 < h) ↔ ¬(max w h ≤ 2 * min w h) := by omega
  by_cases hc : max w h ≤ 2 * min w h
  · rw [if_neg (by rw [hcond]; exact not_not_intro hc), if_pos hc]
  · rw [if_pos (hcond.mpr hc), if_neg hc]

/-- Witness for C3 at a concrete input: an 8×4 block, all neighbours 100,
8-bit build, pixel (3, 7). -/
theorem ipred_dc_rect_spec_witness :
    ipred_dc false (fun _ _ => 0) (fun _ => 100) 8 4 3 7 =
      sar (sar (((List.range 8).map (fun (_ : Nat) => (100 : Int))).sum +
                ((List.range 4).map (fun (_ : Nat) => (100 : Int))).sum +
                ((8 : Int) + (4 : Int)) / 2) (ctz (8 + 4)) *
           (if max 8 4 ≤ 2 * min 8 4 then MULTIPLIER_1x2 false else MULTIPLIER_1x4 false))
          (BASE_SHIFT false) :=
  ipred_dc_rect_spec false 8 (fun _ _ => 0) (fun _ => 100) 8 4 3 7 (by norm_num)
    (Or.inr (Or.inl rfl)) (Or.inl rfl) (fun _ => by norm_num) (by norm_num) (by norm_num)

/-- C8 counterexample: at 8-bit, a 4×32 block (both dimensions powers of two
in [4, 64]) with all neighbours 255 makes `ipred_dc_c` compute dc = 459,
violating the `dc <= (1 << BITDEPTH) - 1` assertion of `splat_dc`. -/
theorem dc_assert_cex :
    validDim 4 ∧ validDim 32 ∧
    (∀ j : Int, 0 ≤ (255 : Int) ∧ (255 : Int) ≤ 2 ^ 8 - 1) ∧
    dcValue false (fun _ => 255) 4 32 = 459 ∧
    ¬(dcValue false (fun _ => 255) 4 32 ≤ 2 ^ 8 - 1) := by
  refine ⟨Or.inl rfl, Or.inr (Or.inr (Or.inr (Or.inl rfl))),
    fun _ => ⟨by norm_num, by norm_num⟩, ?_, ?_⟩ <;> decide

theorem dcTop_bound (bd : Nat) (tl : Int → Int) (w : Nat) (hw : validDim w)
    (hin : ∀ j : Int, 0 ≤ tl j ∧ tl j ≤ 2 ^ bd - 1) :
    0 ≤ dcTopValue tl w ∧ dcTopValue tl w ≤ 2 ^ bd - 1 := by
  obtain ⟨hS0, hS1⟩ := mapsum_bound (fun (i : Nat) => tl (1 + (i : Int))) (2 ^ bd - 1)
    (List.range w) (fun i _ => hin _)
  rw [List.length_range] at hS1
  have hM0 : (0 : Int) ≤ 2 ^ bd - 1 := by have := hin 0; omega
  unfold dcTopValue
  rw [topSumAcc_eq]
  have c4 : ctz 4 = 2 := by decide
  have c8 : ctz 8 = 3 := by decide
  have c16 : ctz 16 = 4 := by decide
  have c32 : ctz 32 = 5 := by decide
  have c64 : ctz 64 = 6 := by decide
  generalize ((List.range w).map (fun (i : Nat) => tl (1 + (i : Int)))).sum = S at hS0 hS1 ⊢
  generalize hMg : (2 : Int) ^ bd - 1 = M at hS1 hM0 ⊢
  rcases hw with rfl | rfl | rfl | rfl | rfl <;>
    · simp only [c4, c8, c16, c32, c64, sar]
      omega

theorem dcLeft_bound (bd : Nat) (tl : Int → Int) (h : Nat) (hh : validDim h)
    (hin : ∀ j : Int, 0 ≤ tl j ∧ tl j ≤ 2 ^ bd - 1) :
    0 ≤ dcLeftValue tl h ∧ dcLeftValue tl h ≤ 2 ^ bd - 1 := by
  obtain ⟨hS0, hS1⟩ := mapsum_bound (fun (i : Nat) => tl (-(1 + (i : Int)))) (2 ^ bd - 1)
    (List.range h) (fun i _ => hin _)
  rw [List.length_range] at hS1
  have hM0 : (0 : Int) ≤ 2 ^ bd - 1 := by have := hin 0; omega
  unfold dcLeftValue
  rw [leftSumAcc_eq]
  have c4 : ctz 4 = 2 := by decide
  have c8 : ctz 8 = 3 := by decide
  have c16 : ctz 16 = 4 := by decide
  have c32 : ctz 32 = 5 := by decide
  have c64 : ctz 64 = 6 := by decide
  generalize ((List.range h).map (fun (i : Nat) => tl (-(1 + (i : Int))))).sum = T at hS0 hS1 ⊢
  generalize hMg : (2 : Int) ^ bd - 1 = M at hS1 hM0 ⊢
  rcases hh with rfl | rfl | rfl | rfl | rfl <;>
    · simp only [c4, c8, c16, c32, c64, sar]
      omega

theorem dcMain_bound (hbd : Bool) (bd : Nat) (tl : Int → Int) (w h : Nat)
    (hbdok : (bd = 8 ∧ hbd = false) ∨ ((bd = 10 ∨ bd = 12) ∧ hbd = true))
    (hw : validDim w) (hh : validDim h) (hratio : w ≤ 4 * h ∧ h ≤ 4 * w)
    (hin : ∀ j : Int, 0 ≤ tl j ∧ tl j ≤ 2 ^ bd - 1) :
    0 ≤ dcValue hbd tl w h ∧ dcValue hbd tl w h ≤ 2 ^ bd - 1 := by
  obtain ⟨hS0, hS1⟩ := mapsum_bound (fun (i : Nat) => tl (1 + (i : Int))) (2 ^ bd - 1)
    (List.range w) (fun i _ => hin _)
  obtain ⟨hT0, hT1⟩ := mapsum_bound (fun (i : Nat) => tl (-(1 + (i : Int)))) (2 ^ bd - 1)
    (List.range h) (fun i _ => hin _)
  rw [List.length_range] at hS1 hT1
  have hM0 : (0 : Int) ≤ 2 ^ bd - 1 := by have := hin 0; omega
  unfold dcValue dcRawValue
  rw [leftSumAcc_eq, topSumAcc_eq]
  generalize ((List.range w).map (fun (i : Nat) => tl (1 + (i : Int)))).sum = S at hS0 hS1 ⊢
  generalize ((List.range h).map (fun (i : Nat) => tl (-(1 + (i : Int))))).sum = T at hT0 hT1 ⊢
  generalize hMg : (2 : Int) ^ bd - 1 = M at hS1 hT1 hM0 ⊢
  have m2f : MULTIPLIER_1x2 false = 0x5556 := by decide
  have m4f : MULTIPLIER_1x4 false = 0x3334 := by decide
  have m2t : MULTIPLIER_1x2 true = 0xAAAB := by decide
  have m4t : MULTIPLIER_1x4 true = 0x6667 := by decide
  have bsf : BASE_SHIFT false = 16 := by decide
  have bst : BASE_SHIFT true = 17 := by decide
  have c8 : ctz 8 = 3 := by decide
  have c12 : ctz 12 = 2 := by decide
  have c16 : ctz 16 = 4 := by decide
  have c20 : ctz 20 = 2 := by decide
  have c24 : ctz 24 = 3 := by decide
  have c32 : ctz 32 = 5 := by decide
  have c40 : ctz 40 = 3 := by decide
  have c48 : ctz 48 = 4 := by decide
  have c64 : ctz 64 = 6 := by decide
  have c80 : ctz 80 = 4 := by decide
  have c96 : ctz 96 = 5 := by decide
  have c128 : ctz 128 = 7 := by decide
  rcases hbdok with ⟨rfl, rfl⟩ | ⟨hbd1012, rfl⟩
  · subst hMg
    rcases hw with rfl | rfl | rfl | rfl | rfl <;>
      rcases hh with rfl | rfl | rfl | rfl | rfl <;>
        first
          | omega
          | (simp only [c8, c12, c16, c20, c24, c32, c40, c48, c64, c80, c96, c128, sar,
               m2f, m4f, bsf]
             norm_num
             omega)
  · rcases hbd1012 with rfl | rfl <;> subst hMg <;>
      rcases hw with rfl | rfl | rfl | rfl | rfl <;>
        rcases hh with rfl | rfl | rfl | rfl | rfl <;>
          first
            | omega
            | (simp only [c8, c12, c16, c20, c24, c32, c40, c48, c64, c80, c96, c128, sar,
                 m2t, m4t, bst]
               norm_num
               omega)

/-- C8 (amended: aspect ratio at most 4, as for every AV1 block size): with
neighbour samples in `[0, 2^bd - 1]`, each of the four DC variants passes
`splat_dc` a dc value in `[0, 2^bd - 1]`, so the assertion at the top of
`splat_dc` holds.  `bd` is the effective sample bit depth (8 in the 8-bit
build, 10 or 12 in the high-bit-depth build). -/
theorem dc_splat_values_in_range (hbd : Bool) (bd : Nat) (tl : Int → Int) (w h : Nat)
    (hbdok : (bd = 8 ∧ hbd = false) ∨ ((bd = 10 ∨ bd = 12) ∧ hbd = true))
    (hw : validDim w) (hh : validDim h) (hratio : w ≤ 4 * h ∧ h ≤ 4 * w)
    (hin : ∀ j : Int, 0 ≤ tl j ∧ tl j ≤ 2 ^ bd - 1) :
    (0 ≤ dcTopValue tl w ∧ dcTopValue tl w ≤ 2 ^ bd - 1) ∧
    (0 ≤ dcLeftValue tl h ∧ dcLeftValue tl h ≤ 2 ^ bd - 1) ∧
    (0 ≤ dcValue hbd tl w h ∧ dcValue hbd tl w h ≤ 2 ^ bd - 1) ∧
    (0 ≤ dc128Value bd ∧ dc128Value bd ≤ 2 ^ bd - 1) := by
  refine ⟨dcTop_bound bd tl w hw hin, dcLeft_bound bd tl h hh hin,
    dcMain_bound hbd bd tl w h hbdok hw hh hratio hin, ?_⟩
  unfold dc128Value
  rcases hbdok with ⟨rfl, _⟩ | ⟨hbd1012, _⟩
  · norm_num
  · rcases hbd1012 with rfl | rfl <;> norm_num

/-- Witness for C8 at a concrete input: 8-bit build, 16×8 block, all
neighbours 255. -/
theorem dc_splat_values_in_range_witness :
    (0 ≤ dcTopValue (fun _ => 255) 16 ∧ dcTopValue (fun _ => 255) 16 ≤ 2 ^ 8 - 1) ∧
    (0 ≤ dcLeftValue (fun _ => 255) 8 ∧ dcLeftValue (fun _ => 255) 8 ≤ 2 ^ 8 - 1) ∧
    (0 ≤ dcValue false (fun _ => 255) 16 8 ∧ dcValue false (fun _ => 255) 16 8 ≤ 2 ^ 8 - 1) ∧
    (0 ≤ dc128Value 8 ∧ dc128Value 8 ≤ 2 ^ 8 - 1) :=
  dc_splat_values_in_range false 8 (fun _ => 255) 16 8 (Or.inl ⟨rfl, rfl⟩)
    (Or.inr (Or.inr (Or.inl rfl))) (Or.inr (Or.inl rfl)) ⟨by norm_num, by norm_num⟩
    (fun _ => ⟨by norm_num, by norm_num⟩)

/-! ## CFL AC computation (`cfl_ac_c`, src/ipred.c lines 532-577) -/

/-- One subsampled luma contribution of `cfl_ac_c` before padding: the sum of
the co-sited 1×1 / 2×1 / 1×2 / 2×2 luma samples at chroma position `(x, y)`,
scaled by `1 + !ss_ver + !ss_hor` left-shifts so all cases share one scale.
`L` is the luma plane, `(column, row) ↦ sample`; the C row pointer advance
`stride << ss_ver` makes the luma row `y << ss_ver`. -/
def cflAcPre (L : Nat → Nat → Int) (ssHor ssVer : Bool) (x y : Nat) : Int :=
  (L (x * (if ssHor then 2 else 1)) (y * (if ssVer then 2 else 1)) +
   (if ssHor then L (x * 2 + 1) (y * (if ssVer then 2 else 1)) else 0) +
   (if ssVer then
     L (x * (if ssHor then 2 else 1)) (y * 2 + 1) +
     (if ssHor then L (x * 2 + 1) (y * 2 + 1) else 0)
    else 0)) *
  2 ^ (1 + (if ssVer then 0 else 1) + (if ssHor then 0 else 1))

/-- One row of the AC plane before the DC subtraction: the first
`width - 4*w_pad` entries are computed, the rest replicate the last computed
entry (the `ac[x] = ac[x-1]` padding loop). -/
def cflAcRow (L : Nat → Nat → Int) (ssHor ssVer : Bool) (w_pad width y : Nat) : List Int :=
  (List.range (width - 4 * w_pad)).map (fun (x : Nat) => cflAcPre L ssHor ssVer x y) ++
  List.replicate (width - (width - 4 * w_pad)) (cflAcPre L ssHor ssVer (width - 4 * w_pad - 1) y)

/-- The AC plane before the DC subtraction: the first `height - 4*h_pad` rows
are computed, the rest replicate the last computed row (the `memcpy` padding
loop). -/
def cflAcPlane (L : Nat → Nat → Int) (ssHor ssVer : Bool)
    (w_pad h_pad width height : Nat) : List (List Int) :=
  (List.range (height - 4 * h_pad)).map
    (fun (y : Nat) => cflAcRow L ssHor ssVer w_pad width y) ++
  List.replicate (height - (height - 4 * h_pad))
    (cflAcRow L ssHor ssVer w_pad width (height - 4 * h_pad - 1))

/-- The sum of all entries of an AC plane. -/
def cflAcSum (p : List (List Int)) : Int := (p.map List.sum).sum

/-- The rounded mean `cfl_ac_c` computes:
`sum = (1 << log2sz) >> 1; sum += all entries; sum >>= log2sz`. -/
def cflAcMean (L : Nat → Nat → Int) (ssHor ssVer : Bool)
    (w_pad h_pad width height log2sz : Nat) : Int :=
  sar ((2 ^ log2sz : Int) / 2 + cflAcSum (cflAcPlane L ssHor ssVer w_pad h_pad width height))
    log2sz

/-- `cfl_ac_c`: the AC plane after the mean subtraction. -/
def cfl_ac (L : Nat → Nat → Int) (ssHor ssVer : Bool)
    (w_pad h_pad width height log2sz : Nat) : List (List Int) :=
  (cflAcPlane L ssHor ssVer w_pad h_pad width height).map
    (fun row => row.map (fun v => v - cflAcMean L ssHor ssVer w_pad h_pad width height log2sz))

theorem map_sub_sum (l : List Int) (m : Int) :
    (l.map (fun v => v - m)).sum = l.sum - (l.length : Int) * m := by
  induction l with
  | nil => simp
  | cons a t ih =>
    simp only [List.map_cons, List.sum_cons, List.length_cons, ih]
    push_cast
    ring

theorem cflAcSum_sub (p : List (List Int)) (m : Int) (w : Nat) (hw : ∀ r ∈ p, r.length = w) :
    cflAcSum (p.map (fun row => row.map (fun v => v - m))) =
      cflAcSum p - (p.length : Int) * (w : Int) * m := by
  induction p with
  | nil => simp [cflAcSum]
  | cons r t ih =>
    have hr := hw r (List.mem_cons_self r t)
    have ht := ih (fun r' hr' => hw r' (List.mem_cons_of_mem r hr'))
    simp only [List.map_cons, cflAcSum, List.sum_cons] at ht ⊢
    rw [map_sub_sum, hr, ht]
    push_cast [List.length_cons]
    ring

theorem cflAcRow_length (L : Nat → Nat → Int) (ssHor ssVer : Bool) (w_pad width y : Nat)
    (hwp : 4 * w_pad ≤ width) : (cflAcRow L ssHor ssVer w_pad width y).length = width := by
  simp only [cflAcRow, List.length_append, List.length_map, List.length_range,
    List.length_replicate]
  omega

theorem cflAcPlane_length (L : Nat → Nat → Int) (ssHor ssVer : Bool)
    (w_pad h_pad width height : Nat) (hhp : 4 * h_pad ≤ height) :
    (cflAcPlane L ssHor ssVer w_pad h_pad width height).length = height := by
  simp only [cflAcPlane, List.length_append, List.length_map, List.length_range,
    List.length_replicate]
  omega

theorem cflAcPlane_rows (L : Nat → Nat → Int) (ssHor ssVer : Bool)
    (w_pad h_pad width height : Nat) (hwp : 4 * w_pad ≤ width) :
    ∀ r ∈ cflAcPlane L ssHor ssVer w_pad h_pad width height, r.length = width := by
  intro r hr
  rcases List.mem_append.mp hr with hm | hm
  · rcases List.mem_map.mp hm with ⟨y, _, rfl⟩
    exact cflAcRow_length L ssHor ssVer w_pad width y hwp
  · rw [List.eq_of_mem_replicate hm]
    exact cflAcRow_length L ssHor ssVer w_pad width _ hwp

/-- C1: after `cfl_ac_c` the sum `S` of the whole AC plane satisfies
`|S| ≤ (width·height)/2`: the plane has zero mean up to rounding. -/
theorem cfl_ac_zero_mean (bd : Nat) (L : Nat → Nat → Int) (ssHor ssVer : Bool)
    (w_pad h_pad width height log2sz : Nat)
    (hwp : 4 * w_pad < width) (hhp : 4 * h_pad < height)
    (hsz : 2 ^ log2sz = width * height)
    (hL : ∀ cx cy, 0 ≤ L cx cy ∧ L cx cy ≤ 2 ^ bd - 1) :
    |cflAcSum (cfl_ac L ssHor ssVer w_pad h_pad width height log2sz)| ≤
      ((width : Int) * (height : Int)) / 2 := by
  have hN : (0 : Int) < (width : Int) * (height : Int) := by
    have h1 : 0 < width := by omega
    have h2 : 0 < height := by omega
    exact_mod_cast Nat.mul_pos h1 h2
  have hszi : ((2 : Int) ^ log2sz) = (width : Int) * (height : Int) := by
    exact_mod_cast hsz
  have hsub := cflAcSum_sub (cflAcPlane L ssHor ssVer w_pad h_pad width height)
    (cflAcMean L ssHor ssVer w_pad h_pad width height log2sz) width
    (cflAcPlane_rows L ssHor ssVer w_pad h_pad width height (by omega))
  rw [cflAcPlane_length L ssHor ssVer w_pad h_pad width height (by omega)] at hsub
  rw [cfl_ac, hsub]
  unfold cflAcMean sar
  rw [hszi]
  have hcomm : (height : Int) * (width : Int) = (width : Int) * (height : Int) :=
    mul_comm _ _
  rw [hcomm]
  generalize cflAcSum (cflAcPlane L ssHor ssVer w_pad h_pad width height) = T
  generalize hNg : (width : Int) * (height : Int) = N at hN ⊢
  have hq := Int.ediv_add_emod (N / 2 + T) N
  have hr0 : 0 ≤ (N / 2 + T) % N := Int.emod_nonneg _ (by omega)
  have hr1 : (N / 2 + T) % N < N := Int.emod_lt_of_pos _ hN
  have hNd1 : N ≤ 2 * (N / 2) + 1 := by omega
  have hNd2 : 2 * (N / 2) ≤ N := by omega
  rw [abs_le]
  constructor
  · linarith [hq, hr0, hr1, hNd1, hNd2]
  · linarith [hq, hr0, hr1, hNd1, hNd2]

/-- Witness for C1 at a concrete input: 4×4 plane, 4:4:4 (no subsampling),
no padding, luma all 77, bit depth 8. -/
theorem cfl_ac_zero_mean_witness :
    |cflAcSum (cfl_ac (fun _ _ => 77) false false 0 0 4 4 4)| ≤ ((4 : Int) * (4 : Int)) / 2 :=
  cfl_ac_zero_mean 8 (fun _ _ => 77) false false 0 0 4 4 4 (by norm_num) (by norm_num)
    (by norm_num) (fun _ _ => ⟨by norm_num, by norm_num⟩)

/-! ## CFL chroma prediction (`cfl_pred_1_c` and `cfl_pred_c`,
src/ipred.c lines 623-669) -/

/-- The per-pixel value of both CFL prediction kernels:
`dst[x] = iclip_pixel(dc + apply_sign((|alpha·ac| + 32) >> 6, alpha·ac))`.
`ac` is the flat AC array, indexed `y·width + x` (the C pointer advances by
`width` per row). -/
def cflPredPixel (bd : Nat) (dc alpha : Int) (ac : Nat → Int) (width y x : Nat) : Int :=
  iclip_pixel bd
    (dc + apply_sign (sar (|alpha * ac (y * width + x)| + 32) 6) (alpha * ac (y * width + x)))

/-- `cfl_pred_1_c`: single-plane CFL prediction; the DC baseline is `dst[0]`
read before the loop. -/
def cfl_pred_1 (bd : Nat) (b : Buf) (ac : Nat → Int) (alpha : Int) (width height : Nat) : Buf :=
  writeRect b width height (fun y x => cflPredPixel bd (b 0 0) alpha ac width y x)

/-- The interleaved per-pixel store loop of `cfl_pred_c`, acting on both
planes. -/
def rectWrite2 (gU gV : Nat → Nat → Int) (bUV : Buf × Buf)
    (cells : List (Nat × Nat)) : Buf × Buf :=
  cells.foldl (fun acc rc =>
    (bufSet acc.1 rc.1 rc.2 (gU rc.1 rc.2), bufSet acc.2 rc.1 rc.2 (gV rc.1 rc.2))) bUV

/-- `cfl_pred_c`: dual-plane CFL prediction with `alphas[0]` on U and
`alphas[1]` on V, reading the AC once per pixel; DC baselines are `dstU[0]`
and `dstV[0]` read before the loop. -/
def cfl_pred (bd : Nat) (bU bV : Buf) (ac : Nat → Int) (alpha0 alpha1 : Int)
    (width height : Nat) : Buf × Buf :=
  rectWrite2 (fun y x => cflPredPixel bd (bU 0 0) alpha0 ac width y x)
    (fun y x => cflPredPixel bd (bV 0 0) alpha1 ac width y x)
    (bU, bV) (rectCells height width)

theorem rectWrite2_fst (gU gV : Nat → Nat → Int) (cells : List (Nat × Nat)) :
    ∀ bUV : Buf × Buf, (rectWrite2 gU gV bUV cells).1 = rectWrite gU bUV.1 cells := by
  induction cells with
  | nil => intro bUV; rfl
  | cons a t ih =>
    intro bUV
    simp only [rectWrite2, rectWrite, List.foldl_cons] at ih ⊢
    exact ih _

theorem rectWrite2_snd (gU gV : Nat → Nat → Int) (cells : List (Nat × Nat)) :
    ∀ bUV : Buf × Buf, (rectWrite2 gU gV bUV cells).2 = rectWrite gV bUV.2 cells := by
  induction cells with
  | nil => intro bUV; rfl
  | cons a t ih =>
    intro bUV
    simp only [rectWrite2, rectWrite, List.foldl_cons] at ih ⊢
    exact ih _

/-- C7: one dual-plane `cfl_pred` call with `alphas[0]`, `alphas[1]` produces
exactly the two buffers of two single-plane `cfl_pred_1` calls with the same
alphas, given the same AC plane and the same initial `dst[0]` DC values. -/
theorem cfl_pred_eq_two_single (bd : Nat) (bU bV : Buf) (ac : Nat → Int)
    (alpha0 alpha1 : Int) (width height : Nat)
    (hw : width = 4 ∨ width = 8 ∨ width = 16 ∨ width = 32) :
    (cfl_pred bd bU bV ac alpha0 alpha1 width height).1 =
      cfl_pred_1 bd bU ac alpha0 width height ∧
    (cfl_pred bd bU bV ac alpha0 alpha1 width height).2 =
      cfl_pred_1 bd bV ac alpha1 width height := by
  constructor
  · rw [cfl_pred, rectWrite2_fst]
    rfl
  · rw [cfl_pred, rectWrite2_snd]
    rfl

/-- Witness for C7 at a concrete input: 4×2, ac from the flat index, alphas
±3, DC baselines from the initial buffers. -/
theorem cfl_pred_eq_two_single_witness :
    (cfl_pred 8 (fun _ _ => 60) (fun _ _ => 90) (fun i => (i : Int) - 3) 3 (-3) 4 2).1 =
      cfl_pred_1 8 (fun _ _ => 60) (fun i => (i : Int) - 3) 3 4 2 ∧
    (cfl_pred 8 (fun _ _ => 60) (fun _ _ => 90) (fun i => (i : Int) - 3) 3 (-3) 4 2).2 =
      cfl_pred_1 8 (fun _ _ => 90) (fun i => (i : Int) - 3) (-3) 4 2 :=
  cfl_pred_eq_two_single 8 (fun _ _ => 60) (fun _ _ => 90) (fun i => (i : Int) - 3)
    3 (-3) 4 2 (Or.inl rfl)

/-! ## Directional prediction: shared edge utilities
(`get_filter_strength`, `get_upsample`, `upsample_edge`,
src/ipred.c lines 229-306) -/

/-- `get_filter_strength` with its verbatim threshold tables; `type` is the
smooth-context flag `is_sm`.  The C code assigns cumulatively, so the largest
satisfied threshold wins. -/
def get_filter_strength (blk_wh d : Nat) (type : Bool) : Nat :=
  if type = false then
    if blk_wh ≤ 8 then (if d ≥ 56 then 1 else 0)
    else if blk_wh ≤ 12 then (if d ≥ 40 then 1 else 0)
    else if blk_wh ≤ 16 then (if d ≥ 40 then 1 else 0)
    else if blk_wh ≤ 24 then
      (if d ≥ 32 then 3 else if d ≥ 16 then 2 else if d ≥ 8 then 1 else 0)
    else if blk_wh ≤ 32 then
      (if d ≥ 32 then 3 else if d ≥ 4 then 2 else if d ≥ 1 then 1 else 0)
    else (if d ≥ 1 then 3 else 0)
  else
    if blk_wh ≤ 8 then (if d ≥ 64 then 2 else if d ≥ 40 then 1 else 0)
    else if blk_wh ≤ 16 then (if d ≥ 48 then 2 else if d ≥ 20 then 1 else 0)
    else if blk_wh ≤ 24 then (if d ≥ 4 then 3 else 0)
    else (if d ≥ 1 then 3 else 0)

/-- `get_upsample`. -/
def get_upsample (blk_wh d : Nat) (type : Bool) : Bool :=
  if d ≥ 40 then false
  else if type then blk_wh ≤ 8 else blk_wh ≤ 16

/-- `upsample_edge`: the value of `out[k]` among the `2·hsz - 1` produced
samples; even indices copy the (clamped) input sample `k/2`, odd indices are
the rounded, pixel-clipped {-1, 9, 9, -1} interpolation. -/
def upsampleEdge (bd : Nat) (inF : Int → Int) (lo hi : Int) (k : Nat) : Int :=
  if k % 2 = 0 then inF (iclip ((k / 2 : Nat) : Int) lo (hi - 1))
  else
    iclip_pixel bd (sar
      ((-1) * inF (iclip (((k / 2 : Nat) : Int) - 1) lo (hi - 1)) +
       9 * inF (iclip (((k / 2 : Nat) : Int)) lo (hi - 1)) +
       9 * inF (iclip (((k / 2 : Nat) : Int) + 1) lo (hi - 1)) +
       (-1) * inF (iclip (((k / 2 : Nat) : Int) + 2) lo (hi - 1)) + 8) 4)

/-- Modelled from the spec: the derivative table `dav1d_dr_intra_derivative`
lives in src/tables.c, which is not part of this tree.  Spec §4.3 says the
table maps each valid angle to its Q6 step and that the fixed-point tables
are bit-exact with the AV1 specification, so this is AV1's
`Dr_Intra_Derivative` table indexed by angle in degrees (entries that are 0
belong to angles no valid AV1 mode uses). -/
def dav1d_dr_intra_derivative : Nat → Nat := fun a =>
  List.getD [0, 0, 0, 1023, 0, 0, 547, 0, 0, 372, 0, 0, 0, 0, 273,
    0, 0, 215, 0, 0, 178, 0, 0, 151, 0, 0, 132, 0, 0, 116,
    0, 0, 102, 0, 0, 0, 90, 0, 0, 80, 0, 0, 71, 0, 0, 64,
    0, 0, 57, 0, 0, 51, 0, 0, 45, 0, 0, 0, 40, 0, 0, 35,
    0, 0, 31, 0, 0, 27, 0, 0, 23, 0, 0, 19, 0, 0, 15, 0,
    0, 0, 0, 11, 0, 0, 7, 0, 0, 3, 0, 0] a 0

/-! ## Z1 prediction (`ipred_z1_c`, src/ipred.c lines 308-358) -/

/-- The upsample decision of `ipred_z1_c` (`d = 90 - angle`). -/
def z1Upsample (width height angle : Nat) (is_sm : Bool) : Bool :=
  get_upsample (width + height) (90 - angle) is_sm

/-- `max_base_x` of `ipred_z1_c`, following the source's if/else chain. -/
def z1MaxBase (width height angle : Nat) (is_sm : Bool) : Nat :=
  if z1Upsample width height angle is_sm then 2 * (width + height) - 2
  else if get_filter_strength (width + height) (90 - angle) is_sm ≠ 0 then
    width + height - 1
  else width + min width height - 1

/-- The conditioned top edge of `ipred_z1_c` (`top[]`), following the same
if/else chain: upsampled into scratch, 5-tap filtered into scratch, or the
raw `&topleft_in[1]`. -/
def z1Top (bd : Nat) (tlIn : Int → Int) (width height angle : Nat)
    (is_sm : Bool) : Nat → Int :=
  if z1Upsample width height angle is_sm then
    fun n => upsampleEdge bd (fun j => tlIn (1 + j)) (-1)
      ((width + min width height : Nat) : Int) n
  else if get_filter_strength (width + height) (90 - angle) is_sm ≠ 0 then
    fun n => filterEdge (get_filter_strength (width + height) (90 - angle) is_sm)
      (fun j => tlIn (1 + j)) (-1) ((width + min width height : Nat) : Int) n
  else fun n => tlIn (1 + (n : Int))

/-- `1 << upsample_above`, the base increment of the x loop. -/
def z1BaseInc (width height angle : Nat) (is_sm : Bool) : Nat :=
  if z1Upsample width height angle is_sm then 2 else 1

/-- `xpos >> frac_bits` at row `y` (`xpos = (y+1)·dx`, `frac_bits = 6 -
upsample_above`). -/
def z1Base0 (width height angle : Nat) (is_sm : Bool) (y : Nat) : Nat :=
  dav1d_dr_intra_derivative angle * (y + 1) /
    2 ^ (6 - (if z1Upsample width height angle is_sm then 1 else 0))

/-- `frac = ((xpos << upsample_above) & 0x3F) >> 1` at row `y`. -/
def z1Frac (width height angle : Nat) (is_sm : Bool) (y : Nat) : Nat :=
  dav1d_dr_intra_derivative angle * (y + 1) *
    (if z1Upsample width height angle is_sm then 2 else 1) % 64 / 2

/-- The inner x loop of `ipred_z1_c` for one row: while `base < max_base_x`
interpolate and store, otherwise `pixel_set` the rest of the row with
`top[max_base_x]` and stop. -/
def z1RowGo (bd : Nat) (top : Nat → Int) (maxbx frac binc width y : Nat)
    (b : Buf) (x base : Nat) : Buf :=
  if hx : x < width then
    if base < maxbx then
      z1RowGo bd top maxbx frac binc width y
        (bufSet b y x (iclip_pixel bd
          (sar (top base * (32 - (frac : Int)) + top (base + 1) * (frac : Int) + 16) 5)))
        (x + 1) (base + binc)
    else
      rectWrite (fun _ _ => top maxbx) b
        ((List.range (width - x)).map (fun i => (y, x + i)))
  else b
termination_by width - x
decreasing_by simp_wf; omega

/-- `ipred_z1_c`. -/
def ipred_z1 (bd : Nat) (b : Buf) (tlIn : Int → Int) (width height angle : Nat)
    (is_sm : Bool) : Buf :=
  (List.range height).foldl (fun acc y =>
    z1RowGo bd (z1Top bd tlIn width height angle is_sm)
      (z1MaxBase width height angle is_sm) (z1Frac width height angle is_sm y)
      (z1BaseInc width height angle is_sm) width y acc 0
      (z1Base0 width height angle is_sm y)) b

/-- `z1RowGo` only writes cells of row `y` with column `< width`. -/
theorem z1RowGo_preserve (bd : Nat) (top : Nat → Int) (maxbx frac binc width y : Nat)
    (r c : Nat) (hout : ¬(r = y ∧ c < width)) :
    ∀ (d : Nat) (b : Buf) (x base : Nat), width - x = d →
      z1RowGo bd top maxbx frac binc width y b x base r c = b r c := by
  intro d
  induction d with
  | zero =>
    intro b x base hd
    rw [z1RowGo]
    rw [dif_neg (by omega)]
  | succ k ih =>
    intro b x base hd
    rw [z1RowGo]
    by_cases hx : x < width
    · rw [dif_pos hx]
      by_cases hb : base < maxbx
      · rw [if_pos hb, ih _ _ _ (by omega)]
        exact bufSet_miss _ _ _ _ _ _ (fun hc => hout ⟨hc.1, lt_of_eq_of_lt hc.2 hx⟩)
      · rw [if_neg hb]
        apply rectWrite_out
        intro hmem
        rcases List.mem_map.mp hmem with ⟨i, hi, heq⟩
        cases heq
        exact hout ⟨rfl, by have := List.mem_range.mp hi; omega⟩
    · rw [dif_neg hx]

/-- The splat tail of the Z1 inner loop: any position at or past the current
one whose accumulated base has reached `max_base_x` ends up holding
`top[max_base_x]`. -/
theorem z1RowGo_splat (bd : Nat) (top : Nat → Int) (maxbx frac binc width y : Nat)
    (hbinc : binc = 1 ∨ binc = 2) :
    ∀ (d : Nat) (b : Buf) (x base : Nat), width - x = d →
      ∀ x2 : Nat, x ≤ x2 → x2 < width → maxbx ≤ base + (x2 - x) * binc →
        z1RowGo bd top maxbx frac binc width y b x base y x2 = top maxbx := by
  intro d
  induction d with
  | zero =>
    intro b x base hd x2 hle hlt hsplat
    omega
  | succ k ih =>
    intro b x base hd x2 hle hlt hsplat
    rw [z1RowGo]
    rw [dif_pos (by omega)]
    by_cases hb : base < maxbx
    · rw [if_pos hb]
      have hne : x ≠ x2 := by
        rintro rfl
        simp at hsplat
        omega
      apply ih _ _ _ (by omega) x2 (by omega) hlt
      rcases hbinc with rfl | rfl <;> omega
    · rw [if_neg hb]
      apply rectWrite_mem
      refine List.mem_map.mpr ⟨x2 - x, List.mem_range.mpr (by omega), ?_⟩
      have : x + (x2 - x) = x2 := by omega
      rw [this]

/-- C5: `max_base_x` is `2(w+h)-2` when the edge is upsampled, `w+h-1` when
it is 5-tap filtered, and `w + min(w,h) - 1` otherwise; and every pixel of a
row whose base index has reached `max_base_x` is set to `top[max_base_x]`. -/
theorem ipred_z1_spec (bd : Nat) (b : Buf) (tlIn : Int → Int)
    (width height angle : Nat) (is_sm : Bool)
    (hang : 0 < angle ∧ angle < 90) (hw : validDim width) (hh : validDim height)
    (y x : Nat) (hy : y < height) (hx : x < width) :
    (z1MaxBase width height angle is_sm =
      (if z1Upsample width height angle is_sm then 2 * (width + height) - 2
       else if get_filter_strength (width + height) (90 - angle) is_sm ≠ 0 then
         width + height - 1
       else width + min width height - 1)) ∧
    (z1MaxBase width height angle is_sm ≤
        z1Base0 width height angle is_sm y + x * z1BaseInc width height angle is_sm →
      ipred_z1 bd b tlIn width height angle is_sm y x =
        z1Top bd tlIn width height angle is_sm (z1MaxBase width height angle is_sm)) := by
  constructor
  · rfl
  · intro hsplat
    unfold ipred_z1
    have hbinc : z1BaseInc width height angle is_sm = 1 ∨
        z1BaseInc width height angle is_sm = 2 := by
      unfold z1BaseInc
      by_cases hu : z1Upsample width height angle is_sm <;> simp [hu]
    have hmain : ∀ rows : List Nat, y ∈ rows → rows.Nodup → ∀ b0 : Buf,
        (rows.foldl (fun acc yy =>
          z1RowGo bd (z1Top bd tlIn width height angle is_sm)
            (z1MaxBase width height angle is_sm) (z1Frac width height angle is_sm yy)
            (z1BaseInc width height angle is_sm) width yy acc 0
            (z1Base0 width height angle is_sm yy)) b0) y x =
          z1Top bd tlIn width height angle is_sm (z1MaxBase width height angle is_sm) := by
      intro rows
      induction rows with
      | nil => intro hmem; cases hmem
      | cons r t iht =>
        intro hmem hnd b0
        simp only [List.foldl_cons]
        by_cases hyt : y ∈ t
        · exact iht hyt (List.Nodup.of_cons hnd) _
        · have hyr : y = r := by
            rcases List.mem_cons.mp hmem with h1 | h2
            · exact h1
            · exact absurd h2 hyt
          subst hyr
          rw [foldl_buf_preserve _ t y x ?steps]
          case steps =>
            intro bb yy hyy
            exact z1RowGo_preserve bd _ _ _ _ width yy y x
              (fun hc => hyt (hc.1 ▸ hyy)) (width - 0) bb 0 _ rfl
          exact z1RowGo_splat bd _ _ _ _ width y hbinc (width - 0) b0 0 _ rfl x
            (Nat.zero_le x) hx (by simpa using hsplat)
    exact hmain (List.range height) (List.mem_range.mpr hy) (List.nodup_range height) b

/-- Witness for C5 at a concrete input: angle 3 (dx = 1023), 4×4 block,
8-bit; at row 0 the base index 15 already exceeds max_base_x = 7, so pixel
(0,0) holds top[7]. -/
theorem ipred_z1_spec_witness :
    ipred_z1 8 (fun _ _ => 0) (fun i => i) 4 4 3 false 0 0 =
      z1Top 8 (fun i => i) 4 4 3 false (z1MaxBase 4 4 3 false) :=
  (ipred_z1_spec 8 (fun _ _ => 0) (fun i => i) 4 4 3 false ⟨by norm_num, by norm_num⟩
    (Or.inl rfl) (Or.inl rfl) 0 0 (by norm_num) (by norm_num)).2 (by decide)

/-! ## Z2 prediction (`ipred_z2_c`, src/ipred.c lines 360-429) -/

/-- `upsample_above` of `ipred_z2_c` (`d = angle - 90`). -/
def z2UA (width height angle : Nat) (is_sm : Bool) : Bool :=
  get_upsample (width + height) (angle - 90) is_sm

/-- `upsample_left` of `ipred_z2_c` (`d = 180 - angle`). -/
def z2UL (width height angle : Nat) (is_sm : Bool) : Bool :=
  get_upsample (width + height) (180 - angle) is_sm

/-- The joint edge buffer of `ipred_z2_c`, addressed by the offset from its
interior `topleft` pointer: positive offsets are the conditioned top edge,
negative offsets the conditioned left edge, offset 0 the final
`*topleft = *topleft_in` store.  Offsets outside the region the C code fills
(which the kernel never reads, see the index-safety theorem) take the natural
extension of the same formulas. -/
def z2Edge (bd : Nat) (tlIn : Int → Int) (width height angle : Nat)
    (is_sm : Bool) : Int → Int :=
  fun k =>
    if k = 0 then tlIn 0
    else if 0 < k then
      if z2UA width height angle is_sm then
        upsampleEdge bd tlIn 0 ((width : Int) + 1) k.toNat
      else if get_filter_strength (width + height) (angle - 90) is_sm ≠ 0 then
        filterEdge (get_filter_strength (width + height) (angle - 90) is_sm)
          (fun j => tlIn (1 + j)) (-1) (width : Int) (k - 1).toNat
      else tlIn k
    else
      if z2UL width height angle is_sm then
        upsampleEdge bd (fun j => tlIn (-(height : Int) + j)) 0 ((height : Int) + 1)
          (k + 2 * height).toNat
      else if get_filter_strength (width + height) (180 - angle) is_sm ≠ 0 then
        filterEdge (get_filter_strength (width + height) (180 - angle) is_sm)
          (fun j => tlIn (-(height : Int) + j)) 0 ((height : Int) + 1) (k + height).toNat
      else tlIn k

/-- `base_x` at pixel `(x, y)`: `xpos = -(y+1)·dx` shifted right by
`6 - upsample_above`, plus `x` base increments of `1 << upsample_above`. -/
def z2BaseX (width height angle : Nat) (is_sm : Bool) (x y : Nat) : Int :=
  (-(((y : Int) + 1) * (dav1d_dr_intra_derivative (180 - angle) : Int))) /
      2 ^ (6 - (if z2UA width height angle is_sm then 1 else 0)) +
    (x : Int) * 2 ^ (if z2UA width height angle is_sm then 1 else 0)

/-- `base_y` at pixel `(x, y)`: `ypos = y·64 - (x+1)·dy` shifted right by
`6 - upsample_left`. -/
def z2BaseY (width height angle : Nat) (is_sm : Bool) (x y : Nat) : Int :=
  ((y : Int) * 64 - ((x : Int) + 1) * (dav1d_dr_intra_derivative (angle - 90) : Int)) /
    2 ^ (6 - (if z2UL width height angle is_sm then 1 else 0))

/-- `frac_x` (row constant): `((xpos << upsample_above) & 0x3F) >> 1`;
the two's-complement AND with 0x3F is the non-negative residue mod 64. -/
def z2FracX (width height angle : Nat) (is_sm : Bool) (y : Nat) : Int :=
  (-(((y : Int) + 1) * (dav1d_dr_intra_derivative (180 - angle) : Int))) *
      2 ^ (if z2UA width height angle is_sm then 1 else 0) % 64 / 2

/-- `frac_y`: `((ypos << upsample_left) & 0x3F) >> 1`. -/
def z2FracY (width height angle : Nat) (is_sm : Bool) (x y : Nat) : Int :=
  ((y : Int) * 64 - ((x : Int) + 1) * (dav1d_dr_intra_derivative (angle - 90) : Int)) *
      2 ^ (if z2UL width height angle is_sm then 1 else 0) % 64 / 2

/-- The per-pixel value of `ipred_z2_c`: sample the top edge when
`base_x ≥ min_base_x = -(1 << upsample_above)`, otherwise the left edge
(`top = &topleft[1 << upsample_above]`, `left = &topleft[-(1 << upsample_left)]`,
`left[-i]` reads `edge` at offset `-(1 << upsample_left) - i`). -/
def z2Pixel (bd : Nat) (tlIn : Int → Int) (width height angle : Nat)
    (is_sm : Bool) (y x : Nat) : Int :=
  if -(2 ^ (if z2UA width height angle is_sm then 1 else 0) : Int) ≤
      z2BaseX width height angle is_sm x y then
    iclip_pixel bd (sar
      (z2Edge bd tlIn width height angle is_sm
          ((2 ^ (if z2UA width height angle is_sm then 1 else 0) : Int) +
            z2BaseX width height angle is_sm x y) *
          (32 - z2FracX width height angle is_sm y) +
        z2Edge bd tlIn width height angle is_sm
          ((2 ^ (if z2UA width height angle is_sm then 1 else 0) : Int) +
            z2BaseX width height angle is_sm x y + 1) *
          z2FracX width height angle is_sm y + 16) 5)
  else
    iclip_pixel bd (sar
      (z2Edge bd tlIn width height angle is_sm
          (-(2 ^ (if z2UL width height angle is_sm then 1 else 0) : Int) -
            z2BaseY width height angle is_sm x y) *
          (32 - z2FracY width height angle is_sm x y) +
        z2Edge bd tlIn width height angle is_sm
          (-(2 ^ (if z2UL width height angle is_sm then 1 else 0) : Int) -
            (z2BaseY width height angle is_sm x y + 1)) *
          z2FracY width height angle is_sm x y + 16) 5)

/-- `ipred_z2_c`. -/
def ipred_z2 (bd : Nat) (b : Buf) (tlIn : Int → Int) (width height angle : Nat)
    (is_sm : Bool) : Buf :=
  writeRect b width height (fun y x => z2Pixel bd tlIn width height angle is_sm y x)

/-- The arithmetic heart of the Z2 index-safety argument: if the two Q6 steps
multiply to at most 64·64 and the top-edge test fails strictly
(`B·dx > 64·A`), the left-edge index stays in range (`A·dy ≤ 64·B`). -/
theorem z2_key (A B dx dy : Int) (hA : 0 ≤ A) (hB : 0 ≤ B) (hdx : 0 ≤ dx)
    (hdy : 0 ≤ dy) (hprod : dx * dy ≤ 4096) (h1 : 64 * A + 1 ≤ B * dx) :
    A * dy ≤ 64 * B := by
  by_contra hcon
  push_neg at hcon
  have h2 : 64 * B + 1 ≤ A * dy := by omega
  have hm : (64 * A + 1) * (64 * B + 1) ≤ (B * dx) * (A * dy) :=
    mul_le_mul h1 h2 (by positivity) (by nlinarith)
  have he : (B * dx) * (A * dy) = (A * B) * (dx * dy) := by ring
  have hb : (A * B) * (dx * dy) ≤ (A * B) * 4096 :=
    mul_le_mul_of_nonneg_left hprod (by positivity)
  have hx2 : (64 * A + 1) * (64 * B + 1) = 4096 * (A * B) + 64 * A + 64 * B + 1 := by
    ring
  have hb2 : (A * B) * 4096 = 4096 * (A * B) := by ring
  linarith [hm, he, hb, hx2, hb2, hA, hB]

set_option maxRecDepth 10000 in
/-- C10: in `ipred_z2_c`, whenever the top-edge test `base_x ≥ min_base_x`
fails at a pixel of a valid block, `base_y ≥ -(1 << upsample_left)`, so the
in-loop assertion holds and the left-edge reads stay inside the prepared
edge buffer. -/
theorem ipred_z2_left_index_safe (width height angle : Nat) (is_sm : Bool)
    (hang : 90 < angle ∧ angle < 180) (hw : validDim width) (hh : validDim height)
    (x y : Nat) (hx : x < width) (hy : y < height)
    (hmiss : z2BaseX width height angle is_sm x y <
      -(2 ^ (if z2UA width height angle is_sm then 1 else 0) : Int)) :
    -(2 ^ (if z2UL width height angle is_sm then 1 else 0) : Int) ≤
      z2BaseY width height angle is_sm x y := by
  have hall : ∀ a, a < 180 → 90 < a →
      dav1d_dr_intra_derivative (180 - a) * dav1d_dr_intra_derivative (a - 90) ≤ 4096 := by
    decide
  have hprod := hall angle hang.2 hang.1
  have hprodZ : (dav1d_dr_intra_derivative (180 - angle) : Int) *
      (dav1d_dr_intra_derivative (angle - 90) : Int) ≤ 4096 := by
    exact_mod_cast hprod
  have hdx0 : (0 : Int) ≤ (dav1d_dr_intra_derivative (180 - angle) : Int) :=
    Int.natCast_nonneg _
  have hdy0 : (0 : Int) ≤ (dav1d_dr_intra_derivative (angle - 90) : Int) :=
    Int.natCast_nonneg _
  have h1 : 64 * ((x : Int) + 1) + 1 ≤
      ((y : Int) + 1) * (dav1d_dr_intra_derivative (180 - angle) : Int) := by
    unfold z2BaseX at hmiss
    rcases Bool.eq_false_or_eq_true (z2UA width height angle is_sm) with hua | hua <;>
      · rw [hua] at hmiss
        norm_num at hmiss
        omega
  have h2 := z2_key ((x : Int) + 1) ((y : Int) + 1) _ _ (by positivity) (by positivity)
    hdx0 hdy0 hprodZ h1
  unfold z2BaseY
  rcases Bool.eq_false_or_eq_true (z2UL width height angle is_sm) with hul | hul <;>
    · rw [hul]
      norm_num
      omega

/-- Witness for C10 at a concrete input: angle 177 (dx = 1023, dy = 3), 4×4
block, pixel (x, y) = (0, 0): base_x = -16 < min_base_x = -1, and base_y = -1
is within the required range. -/
theorem ipred_z2_left_index_safe_witness :
    -(2 ^ (if z2UL 4 4 177 false then 1 else 0) : Int) ≤ z2BaseY 4 4 177 false 0 0 :=
  ipred_z2_left_index_safe 4 4 177 false ⟨by norm_num, by norm_num⟩
    (Or.inl rfl) (Or.inl rfl) 0 0 (by norm_num) (by norm_num) (by decide)

/-! ## VERT, HOR, Z3, FILTER and palette kernels
(src/ipred.c lines 134-152, 431-530, 687-697) -/

/-- `ipred_v_c`: copy `topleft[1..width]` into every row. -/
def ipred_v (b : Buf) (tl : Int → Int) (width height : Nat) : Buf :=
  writeRect b width height (fun _ x => tl (1 + (x : Int)))

/-- `ipred_h_c`: set row `y` to `topleft[-(1+y)]`. -/
def ipred_h (b : Buf) (tl : Int → Int) (width height : Nat) : Buf :=
  writeRect b width height (fun y _ => tl (-(1 + (y : Int))))

/-- `pal_pred_c`: gather through the palette with the flat index array
(its stride is the block width). -/
def pal_pred (b : Buf) (pal : Nat → Int) (idx : Nat → Nat) (w h : Nat) : Buf :=
  writeRect b w h (fun y x => pal (idx (y * w + x)))

/-! ## Z3 prediction (`ipred_z3_c`, src/ipred.c lines 431-484) -/

/-- The upsample decision of `ipred_z3_c` (`d = angle - 180`). -/
def z3Upsample (width height angle : Nat) (is_sm : Bool) : Bool :=
  get_upsample (width + height) (angle - 180) is_sm

/-- `max_base_y` of `ipred_z3_c`. -/
def z3MaxBase (width height angle : Nat) (is_sm : Bool) : Nat :=
  if z3Upsample width height angle is_sm then 2 * (width + height) - 2
  else if get_filter_strength (width + height) (angle - 180) is_sm ≠ 0 then
    width + height - 1
  else height + min width height - 1

/-- The conditioned left edge of `ipred_z3_c` as `n ↦ left[-n]`: upsampled
into scratch (read back from its top at offset `2(w+h)-2`), filtered (read
back at `w+h-1`), or the raw `&topleft_in[-1]`. -/
def z3Left (bd : Nat) (tlIn : Int → Int) (width height angle : Nat)
    (is_sm : Bool) : Nat → Int :=
  if z3Upsample width height angle is_sm then
    fun n => upsampleEdge bd (fun j => tlIn (-((width + height : Nat) : Int) + j))
      ((width - height : Nat) : Int) (((width + height : Nat) : Int) + 1)
      (2 * (width + height) - 2 - n)
  else if get_filter_strength (width + height) (angle - 180) is_sm ≠ 0 then
    fun n => filterEdge (get_filter_strength (width + height) (angle - 180) is_sm)
      (fun j => tlIn (-((width + height : Nat) : Int) + j))
      ((width - height : Nat) : Int) (((width + height : Nat) : Int) + 1)
      (width + height - 1 - n)
  else fun n => tlIn (-1 - (n : Int))

/-- `1 << upsample_left`. -/
def z3BaseInc (width height angle : Nat) (is_sm : Bool) : Nat :=
  if z3Upsample width height angle is_sm then 2 else 1

/-- `ypos >> frac_bits` at column `x` (`ypos = (x+1)·dy`). -/
def z3Base0 (width height angle : Nat) (is_sm : Bool) (x : Nat) : Nat :=
  dav1d_dr_intra_derivative (270 - angle) * (x + 1) /
    2 ^ (6 - (if z3Upsample width height angle is_sm then 1 else 0))

/-- `frac = ((ypos << upsample_left) & 0x3F) >> 1` at column `x`. -/
def z3Frac (width height angle : Nat) (is_sm : Bool) (x : Nat) : Nat :=
  dav1d_dr_intra_derivative (270 - angle) * (x + 1) *
    (if z3Upsample width height angle is_sm then 2 else 1) % 64 / 2

/-- The inner y loop of `ipred_z3_c` for one column: while `base < max_base_y`
interpolate and store, otherwise fill the rest of the column with
`left[-max_base_y]` (the do/while loop) and stop. -/
def z3ColGo (bd : Nat) (left : Nat → Int) (maxby frac binc height x : Nat)
    (b : Buf) (y base : Nat) : Buf :=
  if hy : y < height then
    if base < maxby then
      z3ColGo bd left maxby frac binc height x
        (bufSet b y x (iclip_pixel bd
          (sar (left base * (32 - (frac : Int)) + left (base + 1) * (frac : Int) + 16) 5)))
        (y + 1) (base + binc)
    else
      rectWrite (fun _ _ => left maxby) b
        ((List.range (height - y)).map (fun i => (y + i, x)))
  else b
termination_by height - y
decreasing_by simp_wf; omega

/-- `ipred_z3_c`. -/
def ipred_z3 (bd : Nat) (b : Buf) (tlIn : Int → Int) (width height angle : Nat)
    (is_sm : Bool) : Buf :=
  (List.range width).foldl (fun acc x =>
    z3ColGo bd (z3Left bd tlIn width height angle is_sm)
      (z3MaxBase width height angle is_sm) (z3Frac width height angle is_sm x)
      (z3BaseInc width height angle is_sm) height x acc 0
      (z3Base0 width height angle is_sm x)) b

/-- `z3ColGo` only writes cells of column `x` with row `< height`. -/
theorem z3ColGo_preserve (bd : Nat) (left : Nat → Int) (maxby frac binc height x : Nat)
    (r c : Nat) (hout : ¬(c = x ∧ r < height)) :
    ∀ (d : Nat) (b : Buf) (y base : Nat), height - y = d →
      z3ColGo bd left maxby frac binc height x b y base r c = b r c := by
  intro d
  induction d with
  | zero =>
    intro b y base hd
    rw [z3ColGo]
    rw [dif_neg (by omega)]
  | succ k ih =>
    intro b y base hd
    rw [z3ColGo]
    by_cases hy : y < height
    · rw [dif_pos hy]
      by_cases hb : base < maxby
      · rw [if_pos hb, ih _ _ _ (by omega)]
        exact bufSet_miss _ _ _ _ _ _ (fun hc => hout ⟨hc.2, lt_of_eq_of_lt hc.1 hy⟩)
      · rw [if_neg hb]
        apply rectWrite_out
        intro hmem
        rcases List.mem_map.mp hmem with ⟨i, hi, heq⟩
        cases heq
        exact hout ⟨rfl, by have := List.mem_range.mp hi; omega⟩
    · rw [dif_neg hy]

/-! ## FILTER prediction (`ipred_filter_c`, src/ipred.c lines 486-530) -/

/-- The seven context samples `p0..p6` of a 4×2 FILTER sub-patch at `(y, x)`:
`p0` is the sub-patch's top-left, `p1..p4` the row above, `p5, p6` the two
left neighbours; for `x > 0` and `y > 0` they are read back from the
destination buffer. -/
def filterCtx (tlIn : Int → Int) (b : Buf) (y x : Nat) : Nat → Int :=
  fun j =>
    if j = 0 then
      (if x = 0 then tlIn (-(y : Int))
       else if y = 0 then tlIn (x : Int) else b (y - 1) (x - 1))
    else if j ≤ 4 then
      (if y = 0 then tlIn ((x + j : Nat) : Int) else b (y - 1) (x + j - 1))
    else if j = 5 then
      (if x = 0 then tlIn (-((y : Int) + 1)) else b y (x - 1))
    else
      (if x = 0 then tlIn (-((y : Int) + 2)) else b (y + 1) (x - 1))

/-- The 7-tap dot product of one FILTER output position (`p = yy·4 + xx`). -/
def filterAcc (flt : Nat → Nat → Int) (ctx : Nat → Int) (p : Nat) : Int :=
  flt p 0 * ctx 0 + flt p 1 * ctx 1 + flt p 2 * ctx 2 + flt p 3 * ctx 3 +
  flt p 4 * ctx 4 + flt p 5 * ctx 5 + flt p 6 * ctx 6

/-- The 2×4 cells of one FILTER sub-patch. -/
def patchCells (y x : Nat) : List (Nat × Nat) :=
  (List.range 2).flatMap (fun yy => (List.range 4).map (fun xx => (y + yy, x + xx)))

/-- One FILTER sub-patch: read the seven context samples, then write the
eight outputs `iclip_pixel((acc + 8) >> 4)`. -/
def filterPatch (bd : Nat) (flt : Nat → Nat → Int) (tlIn : Int → Int) (b : Buf)
    (y x : Nat) : Buf :=
  rectWrite
    (fun r c => iclip_pixel bd
      (sar (filterAcc flt (filterCtx tlIn b y x) ((r - y) * 4 + (c - x)) + 8) 4))
    b (patchCells y x)

/-- `ipred_filter_c`: sub-patches in raster order, stepping 2 rows and 4
columns; `flt` models the selected row `dav1d_filter_intra_taps[filt_idx]`
of the external table in src/tables.c. -/
def ipred_filter (bd : Nat) (flt : Nat → Nat → Int) (b : Buf) (tlIn : Int → Int)
    (width height : Nat) : Buf :=
  (storeStarts height 2).foldl (fun acc y =>
    (storeStarts width 4).foldl (fun acc2 x => filterPatch bd flt tlIn acc2 y x) acc) b

theorem storeStarts_bound (m s y : Nat) (hs : 0 < s) (hy : y ∈ storeStarts (s * m) s) :
    y + s ≤ s * m := by
  unfold storeStarts at hy
  rcases List.mem_map.mp hy with ⟨k, hk, rfl⟩
  have hq : (s * m + s - 1) / s = m := by
    rcases Nat.eq_zero_or_pos m with rfl | hm
    · have h0 : s * 0 + s - 1 = s - 1 := by omega
      rw [h0]
      exact Nat.div_eq_of_lt (by omega)
    · have h1 : s * m + s - 1 = s * m + (s - 1) := by omega
      rw [h1, Nat.mul_add_div hs, Nat.div_eq_of_lt (by omega)]
      omega
  rw [hq] at hk
  have hk2 := List.mem_range.mp hk
  calc s * k + s = s * (k + 1) := by ring
    _ ≤ s * m := Nat.mul_le_mul_left s hk2

/-- A FILTER sub-patch leaves every cell outside its 2×4 rectangle
untouched. -/
theorem filterPatch_preserve (bd : Nat) (flt : Nat → Nat → Int) (tlIn : Int → Int)
    (b : Buf) (y x r c : Nat) (hout : ¬(y ≤ r ∧ r < y + 2 ∧ x ≤ c ∧ c < x + 4)) :
    filterPatch bd flt tlIn b y x r c = b r c := by
  apply rectWrite_out
  intro hmem
  rcases List.mem_flatMap.mp hmem with ⟨yy, hyy, hin⟩
  rcases List.mem_map.mp hin with ⟨xx, hxx, heq⟩
  cases heq
  exact hout ⟨by omega, by have := List.mem_range.mp hyy; omega,
    by omega, by have := List.mem_range.mp hxx; omega⟩

/-- C2: every prediction kernel installed in the dispatch record writes only
inside the destination rectangle `[0,width) × [0,height)`: any cell outside
it holds its original value after the call.  In particular `splat_dc`'s wide
4- and 8-pixel stores stay within each row (power-of-two widths make the
store blocks tile the row exactly). -/
theorem kernels_write_only_in_rect (hbd : Bool) (bd : Nat) (b bU bV : Buf)
    (tl : Int → Int) (W : Nat → Nat) (flt : Nat → Nat → Int) (ac : Nat → Int)
    (alpha0 alpha1 : Int) (pal : Nat → Int) (idx : Nat → Nat)
    (width height angle : Nat) (is_sm : Bool) (r c : Nat)
    (hw : validDim width) (hh : validDim height) (hout : ¬(r < height ∧ c < width)) :
    ipred_dc hbd b tl width height r c = b r c ∧
    ipred_dc_128 hbd bd b tl width height r c = b r c ∧
    ipred_dc_top hbd b tl width height r c = b r c ∧
    ipred_dc_left hbd b tl width height r c = b r c ∧
    ipred_h b tl width height r c = b r c ∧
    ipred_v b tl width height r c = b r c ∧
    ipred_paeth b tl width height r c = b r c ∧
    ipred_smooth b W tl width height r c = b r c ∧
    ipred_smooth_v b W tl width height r c = b r c ∧
    ipred_smooth_h b W tl width height r c = b r c ∧
    ipred_z1 bd b tl width height angle is_sm r c = b r c ∧
    ipred_z2 bd b tl width height angle is_sm r c = b r c ∧
    ipred_z3 bd b tl width height angle is_sm r c = b r c ∧
    ipred_filter bd flt b tl width height r c = b r c ∧
    cfl_pred_1 bd b ac alpha0 width height r c = b r c ∧
    (cfl_pred bd bU bV ac alpha0 alpha1 width height).1 r c = bU r c ∧
    (cfl_pred bd bU bV ac alpha0 alpha1 width height).2 r c = bV r c ∧
    pal_pred b pal idx width height r c = b r c := by
  refine ⟨?_, ?_, ?_, ?_, ?_, ?_, ?_, ?_, ?_, ?_, ?_, ?_, ?_, ?_, ?_, ?_, ?_, ?_⟩
  · exact splat_dc_out hbd b width height _ r c hw hout
  · exact splat_dc_out hbd b width height _ r c hw hout
  · exact splat_dc_out hbd b width height _ r c hw hout
  · exact splat_dc_out hbd b width height _ r c hw hout
  · exact writeRect_out b width height _ r c hout
  · exact writeRect_out b width height _ r c hout
  · exact writeRect_out b width height _ r c hout
  · exact writeRect_out b width height _ r c hout
  · exact writeRect_out b width height _ r c hout
  · exact writeRect_out b width height _ r c hout
  · unfold ipred_z1
    apply foldl_buf_preserve
    intro bb yy hyy
    exact z1RowGo_preserve bd _ _ _ _ width yy r c
      (fun hc => hout ⟨lt_of_eq_of_lt hc.1 (List.mem_range.mp hyy), hc.2⟩)
      (width - 0) bb 0 _ rfl
  · exact writeRect_out b width height _ r c hout
  · unfold ipred_z3
    apply foldl_buf_preserve
    intro bb xx hxx
    exact z3ColGo_preserve bd _ _ _ _ height xx r c
      (fun hc => hout ⟨hc.2, lt_of_eq_of_lt hc.1 (List.mem_range.mp hxx)⟩)
      (height - 0) bb 0 _ rfl
  · unfold ipred_filter
    apply foldl_buf_preserve
    intro bb yy hyy
    apply foldl_buf_preserve
    intro bb2 xx hxx
    apply filterPatch_preserve
    rintro ⟨hy1, hy2, hx1, hx2⟩
    apply hout
    have hyb : yy + 2 ≤ height := by
      rcases hh with rfl | rfl | rfl | rfl | rfl
      · exact storeStarts_bound 2 2 yy (by norm_num) hyy
      · exact storeStarts_bound 4 2 yy (by norm_num) hyy
      · exact storeStarts_bound 8 2 yy (by norm_num) hyy
      · exact storeStarts_bound 16 2 yy (by norm_num) hyy
      · exact storeStarts_bound 32 2 yy (by norm_num) hyy
    have hxb : xx + 4 ≤ width := by
      rcases hw with rfl | rfl | rfl | rfl | rfl
      · exact storeStarts_bound 1 4 xx (by norm_num) hxx
      · exact storeStarts_bound 2 4 xx (by norm_num) hxx
      · exact storeStarts_bound 4 4 xx (by norm_num) hxx
      · exact storeStarts_bound 8 4 xx (by norm_num) hxx
      · exact storeStarts_bound 16 4 xx (by norm_num) hxx
    exact ⟨by omega, by omega⟩
  · exact writeRect_out b width height _ r c hout
  · rw [cfl_pred, rectWrite2_fst]
    exact rectWrite_out _ _ r c (fun hm => hout ((rectCells_mem height width r c).mp hm)) bU
  · rw [cfl_pred, rectWrite2_snd]
    exact rectWrite_out _ _ r c (fun hm => hout ((rectCells_mem height width r c).mp hm)) bV
  · exact writeRect_out b width height _ r c hout

/-- Witness for C2 at a concrete input: the PAETH conjunct at cell (9, 9)
outside a 4×4 block leaves the initial value 5 in place. -/
theorem kernels_write_only_in_rect_witness :
    ipred_paeth (fun _ _ => 5) (fun _ => 7) 4 4 9 9 = 5 :=
  (kernels_write_only_in_rect false 8 (fun _ _ => 5) (fun _ _ => 5) (fun _ _ => 5)
    (fun _ => 7) (fun _ => 0) (fun _ _ => 0) (fun _ => 0) 0 0 (fun _ => 0) (fun _ => 0)
    4 4 45 false 9 9 (Or.inl rfl) (Or.inl rfl) (by norm_num)).2.2.2.2.2.2.1

end Ipred





